import Mathlib

/-!
Verification development for the theanolm lattice-decoding core:
a shallow embedding of `theanolm/vocabulary.py` and
`theanolm/scoring/latticedecoder.py`, together with theorems about the
embedded definitions.

Conventions of the embedding:
* Python floats are modelled as elements of an ordered field; where the
  decoding structure is exercised on concrete inputs we instantiate with `ℚ`,
  and the analytic score combination (`math.exp`/`math.log`) is stated over
  `ℝ` with `Real.exp`/`Real.log`.
* Python `dict`s are modelled as association lists with insertion-order
  preserving update semantics (a rebound key keeps its position, a new key is
  appended), which is exactly the CPython ordering contract.
* Fallible Python operations (dict subscription, list indexing, `int()`
  parsing, division, `assert`) return `Except PyErr`.
-/

namespace TheanoLM

/-- The Python exception kinds that the embedded code can raise.
`inputError` is theanolm's own `InputError` exception class. -/
inductive PyErr where
  | keyError
  | indexError
  | valueError
  | typeError
  | assertionError
  | zeroDivisionError
  | inputError
deriving DecidableEq, Repr

/-- Turn an `Option` into an `Except`, raising the given Python error on
`none` (models a fallible subscript such as `d[k]` or `l[i]`). -/
def orErr {A : Type} (o : Option A) (e : PyErr) : Except PyErr A :=
  match o with
  | some a => Except.ok a
  | none => Except.error e

/-- Python `dict` lookup (`d[k]` when the key is present, else `None` for
`d.get(k)`): the first matching key of the association list. -/
def dictGet {K V : Type} [DecidableEq K] : List (K × V) → K → Option V
  | [], _ => none
  | p :: d, k => if p.1 = k then some p.2 else dictGet d k

/-- Python `k in d`. -/
def dictContains {K V : Type} [DecidableEq K] (d : List (K × V)) (k : K) : Bool :=
  (dictGet d k).isSome

/-- Python `d[k] = v`: a key already present keeps its position and gets the
new value, a new key is appended at the end (CPython insertion order). -/
def dictInsert {K V : Type} [DecidableEq K] : List (K × V) → K → V → List (K × V)
  | [], k, v => [(k, v)]
  | p :: d, k, v => if p.1 = k then (k, v) :: d else p :: dictInsert d k v

/-- Splitting a character list on runs of whitespace; `cur` is the current
field being accumulated, in reverse. -/
def splitWsAux : List Char → List Char → List (List Char)
  | [], cur => if cur = [] then [] else [cur.reverse]
  | c :: cs, cur =>
    if c.isWhitespace then
      if cur = [] then splitWsAux cs [] else cur.reverse :: splitWsAux cs []
    else splitWsAux cs (c :: cur)

/-- Python `str.split()` with no separator: split on runs of whitespace,
ignoring leading and trailing whitespace.  `line.strip().split()` in the
source is extensionally the same function. -/
def pySplit (s : String) : List String :=
  (splitWsAux s.toList []).map (fun cs => String.mk cs)

/-- Python `str.startswith(pre)`, implemented over the character lists so
that concrete instances reduce in the kernel; extensionally this is
`String.startsWith`. -/
def pyStartsWith (s pre : String) : Bool :=
  pre.toList.isPrefixOf s.toList

/-- Digits of a numeral string folded to a `Nat` (helper for `parseInt`). -/
def digitsToNat (cs : List Char) : Nat :=
  cs.foldl (fun acc c => 10 * acc + (c.toNat - '0'.toNat)) 0

/-- Modelled from the Python builtin `int(str)` on the inputs the vocabulary
formats use: an optional sign followed by decimal digits; anything else
raises `ValueError` (modelled as `none`). -/
def parseInt (s : String) : Option Int :=
  match s.toList with
  | [] => none
  | '-' :: rest =>
    if rest ≠ [] ∧ rest.all Char.isDigit then some (-(digitsToNat rest : Int)) else none
  | '+' :: rest =>
    if rest ≠ [] ∧ rest.all Char.isDigit then some (digitsToNat rest : Int) else none
  | cs =>
    if cs.all Char.isDigit then some (digitsToNat cs : Int) else none

/-- Modelled from the Python builtin `float(str)` on plain decimal numerals
(optional sign, digits, optional fractional part), returning an exact
rational; anything else raises `ValueError` (modelled as `none`). -/
def parseQ (s : String) : Option ℚ :=
  let core : List Char → Option ℚ := fun cs =>
    match cs.splitOn '.' with
    | [intPart] =>
      if intPart ≠ [] ∧ intPart.all Char.isDigit then some (digitsToNat intPart : ℚ) else none
    | [intPart, fracPart] =>
      if intPart.all Char.isDigit ∧ fracPart ≠ [] ∧ fracPart.all Char.isDigit then
        some ((digitsToNat intPart : ℚ) +
          (digitsToNat fracPart : ℚ) / ((10 : ℚ) ^ fracPart.length))
      else none
    | _ => none
  match s.toList with
  | '-' :: rest => (core rest).map (fun q => -q)
  | '+' :: rest => core rest
  | cs => core cs

/-- Zero-padded decimal rendering of width 5, as in Python `'{0:05d}'`.
(Only reachable through the dead `int`-id branch of `_class_name`.) -/
def padFive (z : Int) : String :=
  let digits := toString z.natAbs
  let pad := String.mk (List.replicate (5 - digits.length - (if z < 0 then 1 else 0)) '0')
  (if z < 0 then "-" else "") ++ pad ++ digits

/-! ## Vocabulary (`theanolm/vocabulary.py`) -/

/-- The value stored in `WordClass.id`.  The source constructor executes
`self.id = id`, binding the Python **builtin function** `id`, not the
`class_id` parameter; `pyBuiltinId` models that value.  `pyNone` and `pyInt`
model the values `_class_name` expects to find there. -/
inductive IdVal where
  | pyBuiltinId
  | pyNone
  | pyInt (z : Int)
deriving DecidableEq, Repr

/-- `Vocabulary.WordClass`: one word class with its ordered membership
probability table (`OrderedDict` from word ID to probability). -/
structure WordClass where
  id : IdVal
  probs : List (Nat × ℚ)
deriving DecidableEq, Repr

namespace WordClass

/-- `WordClass.__init__(class_id, word_id, prob)`.  Note the source stores
the builtin `id` function in `self.id` instead of `class_id`; the
`class_id` parameter is accordingly unused here as well. -/
def init (_class_id : Nat) (word_id : Nat) (prob : ℚ) : WordClass :=
  { id := IdVal.pyBuiltinId, probs := [(word_id, prob)] }

/-- `WordClass.add(word_id, prob)`. -/
def add (wc : WordClass) (word_id : Nat) (prob : ℚ) : WordClass :=
  { wc with probs := dictInsert wc.probs word_id prob }

/-- `WordClass.get_prob(word_id)`; a missing member is a `KeyError`. -/
def getProb (wc : WordClass) (word_id : Nat) : Except PyErr ℚ :=
  orErr (dictGet wc.probs word_id) PyErr.keyError

/-- `WordClass.normalize_probs()`: divide every membership probability by
their sum.  A zero sum is a float `ZeroDivisionError` in Python. -/
def normalizeProbs (wc : WordClass) : Except PyErr WordClass :=
  let probSum := (wc.probs.map (fun p => p.2)).sum
  if probSum = 0 then Except.error PyErr.zeroDivisionError
  else Except.ok { wc with probs := wc.probs.map (fun p => (p.1, p.2 / probSum)) }

end WordClass

/-- `Vocabulary`: word/class tables.  `word_classes` is `self._word_classes`. -/
structure Vocabulary where
  id_to_word : List String
  word_classes : List WordClass
  word_id_to_class_id : List Nat
  word_to_id : List (String × Nat)
  first_normal_word_id : Nat
  first_normal_class_id : Nat
deriving DecidableEq, Repr

instance : Inhabited Vocabulary := ⟨⟨[], [], [], [], 0, 0⟩⟩

/-- The three special words, in the order `__init__` considers them. -/
def specialWords : List String := ["<s>", "</s>", "<unk>"]

/-- One special-word block of `Vocabulary.__init__`: if the word has no class
assignment yet, append it with a fresh singleton class of probability 1.
The state is `(id_to_word, _word_classes, word_id_to_class_id)`. -/
def addSpecial (word_to_class_id : List (String × Nat))
    (st : List String × List WordClass × List Nat) (w : String) :
    List String × List WordClass × List Nat :=
  if dictContains word_to_class_id w then st
  else
    let word_id := st.1.length
    let class_id := st.2.1.length
    (st.1 ++ [w], st.2.1 ++ [WordClass.init class_id word_id 1], st.2.2 ++ [class_id])

/-- The dict comprehension
`{word: word_id for word_id, word in enumerate(self.id_to_word)}`. -/
def buildWordToId (id_to_word : List String) : List (String × Nat) :=
  id_to_word.enum.foldl (fun d p => dictInsert d p.2 p.1) []

/-- The three special-word blocks of `Vocabulary.__init__`, in order. -/
def specialsState (word_to_class_id : List (String × Nat)) :
    List String × List WordClass × List Nat :=
  specialWords.foldl (addSpecial word_to_class_id) ([], [], [])

/-- The `for word_id, word in enumerate(id_to_word)` loop of
`Vocabulary.__init__`: translate each input word's class through
`word_to_class_id` (a missing word is a `KeyError`) and append
`first_normal_class_id + class_id`. -/
def inputClassIds (word_to_class_id : List (String × Nat)) (first_normal_class_id : Nat)
    (id_to_word_in : List String) (acc0 : List Nat) : Except PyErr (List Nat) :=
  id_to_word_in.foldlM
    (fun acc w => do
      let c ← orErr (dictGet word_to_class_id w) PyErr.keyError
      Except.ok (acc ++ [first_normal_class_id + c]))
    acc0

/-- The `for word_class in word_classes` loop of `Vocabulary.__init__`:
shift every member's word ID by `first_normal_word_id` and normalize (a
zero-sum class surfaces `ZeroDivisionError`). -/
def shiftClasses (first_normal_word_id : Nat) (word_classes_in : List WordClass) :
    Except PyErr (List WordClass) :=
  word_classes_in.mapM
    (fun wc => WordClass.normalizeProbs
      { wc with probs := wc.probs.map (fun p => (first_normal_word_id + p.1, p.2)) })

/-- `Vocabulary.__init__(id_to_word, word_to_class_id, word_classes)`:
prepend absent special words, record the first normal word/class IDs, build
the word-to-ID dict, translate the input words' class IDs, then shift and
normalize the input classes. -/
def vocabInit (id_to_word_in : List String) (word_to_class_id : List (String × Nat))
    (word_classes_in : List WordClass) : Except PyErr Vocabulary := do
  let w2c ← inputClassIds word_to_class_id (specialsState word_to_class_id).2.1.length
    id_to_word_in (specialsState word_to_class_id).2.2
  let shifted ← shiftClasses (specialsState word_to_class_id).1.length word_classes_in
  Except.ok
    { id_to_word := (specialsState word_to_class_id).1 ++ id_to_word_in
      word_classes := (specialsState word_to_class_id).2.1 ++ shifted
      word_id_to_class_id := w2c
      word_to_id := buildWordToId ((specialsState word_to_class_id).1 ++ id_to_word_in)
      first_normal_word_id := (specialsState word_to_class_id).1.length
      first_normal_class_id := (specialsState word_to_class_id).2.1.length }

/-- The external class tag read from one vocabulary-file line: an integer in
`classes` format, a class-name string in `srilm-classes` format. -/
def FileKey : Type := Int ⊕ String
deriving instance DecidableEq for FileKey

/-- Accumulator state of `Vocabulary.from_file`'s line loop. -/
structure FState where
  itw : List String
  wtc : List (String × Nat)
  wcs : List WordClass
  f2c : List (FileKey × Nat)
deriving DecidableEq

/-- The per-format field parsing of one `from_file` line: `words` takes one
field, `classes` a word and an integer tag, `srilm-classes` a class name, a
probability and a word.  A wrong field count for the declared format is the
source's `InputError`; a malformed numeral is `ValueError` from
`int()`/`float()`. -/
def parseFields (input_format : String) (fields : List String) :
    Except PyErr (String × Option FileKey × ℚ) :=
  if input_format = "words" ∧ fields.length = 1 then
    Except.ok (fields.headD "", none, 1)
  else if input_format = "classes" ∧ fields.length = 2 then
    match parseInt (fields.getD 1 "") with
    | some z => Except.ok (fields.headD "", some (Sum.inl z), 1)
    | none => Except.error PyErr.valueError
  else if input_format = "srilm-classes" ∧ fields.length = 3 then
    match parseQ (fields.getD 1 "") with
    | some q => Except.ok (fields.getD 2 "", some (Sum.inr (fields.headD "")), q)
    | none => Except.error PyErr.valueError
  else Except.error PyErr.inputError

/-- One iteration of `Vocabulary.from_file`'s line loop: strip/split the
line, skip it when empty, parse the fields for the declared format, then
append the word and assign it to a class (an existing file class ID joins
that class, otherwise a fresh class is created). -/
def processLine (input_format : String) (st : FState) (line : String) :
    Except PyErr FState := do
  let fields := pySplit line
  if fields = [] then Except.ok st
  else do
    let (word, file_id, prob) ← parseFields input_format fields
    let word_id := st.itw.length
    let itw := st.itw ++ [word]
    if dictContains st.wtc word then Except.error PyErr.inputError
    else
      match file_id.bind (dictGet st.f2c) with
      | some class_id =>
        Except.ok { st with
          itw := itw
          wcs := st.wcs.set class_id
            (((st.wcs.getD class_id (WordClass.init 0 0 1)).add word_id prob))
          wtc := dictInsert st.wtc word class_id }
      | none =>
        let class_id := st.wcs.length
        Except.ok { st with
          itw := itw
          wcs := st.wcs ++ [WordClass.init class_id word_id prob]
          f2c := match file_id with
            | some fid => dictInsert st.f2c fid class_id
            | none => st.f2c
          wtc := dictInsert st.wtc word class_id }

/-- `Vocabulary.from_file(input_file, input_format)`, with the file given as
its list of lines. -/
def fromFile (lines : List String) (input_format : String) : Except PyErr Vocabulary := do
  let st ← lines.foldlM (processLine input_format) ⟨[], [], [], []⟩
  vocabInit st.itw st.wtc st.wcs

/-- Accumulator of `from_word_counts`' loop:
`(id_to_word, word_to_class_id, word_classes, class_id)`. -/
structure WCState where
  itw : List String
  wtc : List (String × Nat)
  wcs : List WordClass
  class_id : Nat

/-- The single step of `from_word_counts`' round-robin loop, named for the
invariance proofs. -/
def wordCountStep (n : Nat) (st : WCState) (wp : String × Nat) : Except PyErr WCState :=
  let word_id := st.itw.length
  let itw := st.itw ++ [wp.1]
  let wcs :=
    if st.class_id < st.wcs.length then
      st.wcs.set st.class_id
        ((st.wcs.getD st.class_id (WordClass.init 0 0 1)).add word_id 1)
    else
      st.wcs ++ [WordClass.init st.class_id word_id 1]
  let wtc := dictInsert st.wtc wp.1 st.class_id
  if n = 0 then Except.error PyErr.zeroDivisionError
  else Except.ok ⟨itw, wtc, wcs, (st.class_id + 1) % n⟩


/-- `Vocabulary.from_word_counts(word_counts, num_classes)`.  The counts
dict is given as an insertion-ordered association list; its items are sorted
by ascending count with Python's stable sort, then dealt round-robin into
`num_classes` classes (`None` means one class per word).  `% 0` — possible
when `num_classes` is zero and words exist — is a `ZeroDivisionError`. -/
def fromWordCounts (word_counts : List (String × Nat)) (num_classes : Option Nat) :
    Except PyErr Vocabulary := do
  let st ← (List.insertionSort (fun a b : String × Nat => a.2 ≤ b.2) word_counts).foldlM
    (wordCountStep (num_classes.getD word_counts.length)) ⟨[], [], [], 0⟩
  vocabInit st.itw st.wtc st.wcs

/-- The word-counting loop of `Vocabulary.from_corpus`, over files given as
lists of lines. -/
def corpusCounts (input_files : List (List String)) : List (String × Nat) :=
  input_files.foldl
    (fun counts file =>
      file.foldl
        (fun counts line =>
          (pySplit line).foldl
            (fun counts word =>
              match dictGet counts word with
              | none => counts ++ [(word, 1)]
              | some c => dictInsert counts word (c + 1))
            counts)
        counts)
    []

/-- `Vocabulary.from_corpus(input_files, num_classes)`. -/
def fromCorpus (input_files : List (List String)) (num_classes : Option Nat) :
    Except PyErr Vocabulary :=
  fromWordCounts (corpusCounts input_files) num_classes

namespace Vocabulary

/-- `Vocabulary.num_words()`. -/
def numWords (v : Vocabulary) : Nat := v.id_to_word.length

/-- `Vocabulary.num_classes()`. -/
def numClasses (v : Vocabulary) : Nat := v.word_classes.length

/-- `Vocabulary.word_to_class_id(word)` (the method, not the field). -/
def wordToClassId (v : Vocabulary) (word : String) : Except PyErr Nat := do
  let wid ← orErr (dictGet v.word_to_id word) PyErr.keyError
  orErr (v.word_id_to_class_id.get? wid) PyErr.indexError

/-- `Vocabulary.words_to_ids(words)`: a word absent from `word_to_id` maps
to the `<unk>` ID. -/
def wordsToIds (v : Vocabulary) (words : List String) : Except PyErr (List Nat) := do
  let unk_id ← orErr (dictGet v.word_to_id "<unk>") PyErr.keyError
  Except.ok (words.map (fun w => (dictGet v.word_to_id w).getD unk_id))

/-- `Vocabulary._class_name(word_class)`: the word itself for a singleton
class; otherwise `'CLASS'` for a `None` id, or `'CLASS-{0:05d}'` for an
integer id.  Because the constructor stored the builtin `id` function, the
format call raises `TypeError` on every class the program ever builds. -/
def className (v : Vocabulary) (wc : WordClass) : Except PyErr String :=
  if wc.probs.length = 1 then
    orErr (v.id_to_word.get? ((wc.probs.headD (0, 1)).1)) PyErr.indexError
  else
    match wc.id with
    | IdVal.pyNone => Except.ok "CLASS"
    | IdVal.pyInt z => Except.ok ("CLASS-" ++ padFive z)
    | IdVal.pyBuiltinId => Except.error PyErr.typeError

/-- `Vocabulary.word_ids_to_classes(word_ids)`.  Note the source subscripts
`self._word_classes[word_id]` with a **word** ID, not the word's class ID. -/
def wordIdsToClasses (v : Vocabulary) (word_ids : List Nat) : Except PyErr (List String) :=
  word_ids.mapM (fun wid => do
    let wc ← orErr (v.word_classes.get? wid) PyErr.indexError
    className v wc)

/-- `Vocabulary.get_word_prob(word_id)`. -/
def getWordProb (v : Vocabulary) (word_id : Nat) : Except PyErr ℚ := do
  let class_id ← orErr (v.word_id_to_class_id.get? word_id) PyErr.indexError
  let wc ← orErr (v.word_classes.get? class_id) PyErr.indexError
  wc.getProb word_id

/-- `Vocabulary.__contains__(word)`. -/
def containsWord (v : Vocabulary) (word : String) : Bool :=
  dictContains v.word_to_id word

end Vocabulary

/-! ## Lattice decoder (`theanolm/scoring/latticedecoder.py`)

Log-probabilities are elements of an ordered field `α`; the source's floats
are ideally `α = ℝ`.  The transcendental functions `math.exp`/`math.log` and
their 16-digit `decimal` counterparts used by the underflow fallback are
supplied as a `FloatBackend` parameter so that the decoding structure stays
executable; the score-combination theorems instantiate them with `Real.exp`
and `Real.log`. -/

/-- The arithmetic backend of `compute_total_logprob`: `fexp`/`flog` model
`math.exp`/`math.log`, `dexp`/`dln` model `Decimal.exp`/`Decimal.ln` at
`getcontext().prec = 16`.  In the ideal real-valued reading all four are
`Real.exp`/`Real.log`. -/
structure FloatBackend (α : Type) where
  fexp : α → α
  flog : α → α
  dexp : α → α
  dln : α → α

/-- `LatticeDecoder.Token`: word-ID history, recurrent state (opaque, type
`σ`), and the accumulated log-probabilities.  `total_logprob` is `none`
until `compute_total_logprob` has set it (in Python the attribute simply
does not exist yet). -/
structure Token (α σ : Type) where
  history : List Nat
  state : σ
  ac_logprob : α
  lat_lm_logprob : α
  nn_lm_logprob : α
  total_logprob : Option α
deriving DecidableEq

namespace Token

/-- `Token.__init__` with the listed arguments (the `total_logprob`
attribute is not created by the constructor). -/
def init {α σ : Type} (history : List Nat) (state : σ) (ac_logprob lat_lm_logprob nn_lm_logprob : α) :
    Token α σ :=
  ⟨history, state, ac_logprob, lat_lm_logprob, nn_lm_logprob, none⟩

/-- `Token.copy(token)`: a new token with a deep copy of the history, the
same state reference, and the three scalar scores; built through
`__init__`, so the copy has no `total_logprob` yet.  (Aliasing itself is
analysed separately with an explicit heap in `HeapModel` below.) -/
def copy {α σ : Type} (t : Token α σ) : Token α σ :=
  init t.history t.state t.ac_logprob t.lat_lm_logprob t.nn_lm_logprob

end Token

/-- The direct floating-point path of `compute_total_logprob`:
`lm_prob = (1 - w) * exp(lat) + w * exp(nn)`, then `log`. -/
def lmLogprobDirect {α : Type} [LinearOrderedField α] (B : FloatBackend α)
    (w lat nn : α) : α :=
  B.flog ((1 - w) * B.fexp lat + w * B.fexp nn)

/-- The arbitrary-precision fallback path of `compute_total_logprob`: the
same formula evaluated with the `decimal` library at 16 significant
digits. -/
def lmLogprobFallback {α : Type} [LinearOrderedField α] (B : FloatBackend α)
    (w lat nn : α) : α :=
  B.dln ((1 - w) * B.dexp lat + w * B.dexp nn)

/-- `Token.compute_total_logprob(nn_lm_weight, lm_scale)`: interpolate the
two LM probabilities in probability space along the direct path; if either
`exp()` underflowed to zero, redo the same formula on the
arbitrary-precision fallback path.  Finally
`total_logprob = ac_logprob + lm_logprob * lm_scale`. -/
def Token.computeTotalLogprob {α σ : Type} [LinearOrderedField α] (B : FloatBackend α)
    (t : Token α σ) (nn_lm_weight lm_scale : α) : Token α σ :=
  let lat_lm_prob := B.fexp t.lat_lm_logprob
  let nn_lm_prob := B.fexp t.nn_lm_logprob
  let lm_logprob :=
    if 0 < lat_lm_prob ∧ 0 < nn_lm_prob then
      lmLogprobDirect B nn_lm_weight t.lat_lm_logprob t.nn_lm_logprob
    else
      lmLogprobFallback B nn_lm_weight t.lat_lm_logprob t.nn_lm_logprob
  { t with total_logprob := some (t.ac_logprob + lm_logprob * lm_scale) }

/-- The sort key of `decode`'s final `sorted(...)` call,
`lambda token: token.total_logprob`.  On the path where it is consulted
every token's `total_logprob` has just been computed by `append_word`
(`decode_returns_sorted_final_tokens` proves all of them are `some`), so
the `getD` default is never consulted. -/
def totalKey {α σ : Type} [LinearOrderedField α] (t : Token α σ) : α :=
  t.total_logprob.getD 0

/-- Modelled from the spec: one lattice link — a target word (markup words
begin with `'!'`), an acoustic log-probability, a lattice-LM
log-probability, and the destination node's ID (`link.end_node.id`). -/
structure Link (α : Type) where
  word : String
  ac_logprob : α
  lm_logprob : α
  end_node : Nat
deriving DecidableEq

/-- Modelled from the spec: a lattice node with a stable integer ID and its
outgoing links. -/
structure LatNode (α : Type) where
  id : Nat
  out_links : List (Link α)
deriving DecidableEq

/-- Modelled from the spec: the lattice collaborator (`Lattice` is not part
of the analysed sources).  `initial_node`/`final_node` are the IDs of
`lattice.initial_node`/`lattice.final_node`; `sorted_nodes` is the total
ordering of the nodes consistent with link direction that
`lattice.sorted_nodes()` returns. -/
structure Lattice (α : Type) where
  nodes : List (LatNode α)
  initial_node : Nat
  final_node : Nat
  sorted_nodes : List (LatNode α)
deriving DecidableEq

/-- Modelled from the spec: the external sequence-probability model (§6) —
a zero-state constructor (`RecurrentState(network.recurrent_state_size)`)
and the batched single-step scoring function.  The batched recurrent state
is flattened to one state per token (the source's `combine_sequences` and
per-index slicing compose to exactly that). -/
structure NNModel (α σ : Type) where
  zero_state : σ
  step : (word_input : List Nat) → (class_input : List Nat) →
    (states : List σ) → (target_class_ids : List Nat) → List α × List σ

/-- `LatticeDecoder`: the network interface, the vocabulary, the
interpolation weight, the arithmetic backend, and the `<s>`/`</s>` IDs
resolved by `__init__`. -/
structure LatticeDecoder (α σ : Type) where
  model : NNModel α σ
  vocabulary : Vocabulary
  weight : α
  backend : FloatBackend α
  sos_id : Nat
  eos_id : Nat

/-- `LatticeDecoder.__init__`: resolve `<s>` and `</s>` through
`vocabulary.word_to_id` (a `KeyError` if absent); the Theano step-function
compilation is the external `model`. -/
def decoderInit {α σ : Type} (model : NNModel α σ) (vocabulary : Vocabulary)
    (weight : α) (backend : FloatBackend α) : Except PyErr (LatticeDecoder α σ) := do
  let sos_id ← orErr (dictGet vocabulary.word_to_id "<s>") PyErr.keyError
  let eos_id ← orErr (dictGet vocabulary.word_to_id "</s>") PyErr.keyError
  Except.ok ⟨model, vocabulary, weight, backend, sos_id, eos_id⟩

/-- The decoder's per-node token lists (`tokens = [list() for _ in
lattice.nodes]`), as a map from node ID; all IDs of a well-formed lattice
index the Python list in range. -/
abbrev TokenMap (α σ : Type) := Nat → List (Token α σ)

/-- `LatticeDecoder.append_word(tokens, target_word_id)`: batch the last
history words, their class IDs and the states, invoke the external model
once, then append the target word to each history, install the sliced new
state, accumulate the returned log-probability and recompute the total
(`compute_total_logprob(self._weight)`, `lm_scale = 1`).  Out-of-range
class-table subscripts are `IndexError`s as in numpy. -/
def appendWord {α σ : Type} [LinearOrderedField α] (d : LatticeDecoder α σ)
    (tokens : List (Token α σ)) (target_word_id : Nat) :
    Except PyErr (List (Token α σ)) := do
  let word_input ← tokens.mapM (fun t => orErr t.history.getLast? PyErr.indexError)
  let class_input ← word_input.mapM
    (fun wid => orErr (d.vocabulary.word_id_to_class_id.get? wid) PyErr.indexError)
  let target_class ←
    orErr (d.vocabulary.word_id_to_class_id.get? target_word_id) PyErr.indexError
  let result := d.model.step word_input class_input (tokens.map (fun t => t.state))
    (List.replicate tokens.length target_class)
  Except.ok ((tokens.zip (result.1.zip result.2)).map (fun p =>
    Token.computeTotalLogprob d.backend
      { p.1 with
          history := p.1.history ++ [target_word_id]
          state := p.2.2
          nn_lm_logprob := p.1.nn_lm_logprob + p.2.1 }
      d.weight 1))

/-- The body of `decode`'s `for link in node.out_links` loop: copy the
node's tokens, add the link's acoustic and lattice-LM deltas, resolve and
score the word unless it starts with `'!'` (an unknown word is a
`KeyError` from `word_to_id[link.word]`), then extend the destination
node's list. -/
def processLink {α σ : Type} [LinearOrderedField α] (d : LatticeDecoder α σ)
    (node_tokens : List (Token α σ)) (tokens : TokenMap α σ) (link : Link α) :
    Except PyErr (TokenMap α σ) := do
  let new_tokens := node_tokens.map (fun t =>
    let c := Token.copy t
    { c with
        ac_logprob := c.ac_logprob + link.ac_logprob
        lat_lm_logprob := c.lat_lm_logprob + link.lm_logprob })
  let new_tokens ←
    if pyStartsWith link.word "!" then Except.ok new_tokens
    else do
      let word_id ← orErr (dictGet d.vocabulary.word_to_id link.word) PyErr.keyError
      appendWord d new_tokens word_id
  Except.ok (fun n => if n = link.end_node then tokens n ++ new_tokens else tokens n)

/-- The node loop of `LatticeDecoder.decode`.  At each node: `assert
node_tokens` (an empty list is an `AssertionError`); at the final node,
copy the tokens, score `</s>` into them and return them sorted by
`total_logprob` descending (Python's `sorted(..., reverse=True)` is the
stable descending sort, modelled by `insertionSort` with the reversed
comparison); otherwise fan the tokens out over the outgoing links.  The
per-link re-read `tks node.id` mirrors the source's `node_tokens` alias of
the mutable list.  An exhausted loop is the source's
`InputError('Could not reach the final node of word lattice.')`. -/
def decodeGo {α σ : Type} [LinearOrderedField α] (d : LatticeDecoder α σ)
    (lat : Lattice α) : List (LatNode α) → TokenMap α σ →
    Except PyErr (List (Token α σ))
  | [], _ => Except.error PyErr.inputError
  | node :: rest, tokens =>
    if (tokens node.id).isEmpty then Except.error PyErr.assertionError
    else if node.id = lat.final_node then do
      let new_tokens ← appendWord d ((tokens node.id).map Token.copy) d.eos_id
      Except.ok (List.insertionSort
        (fun a b => totalKey b ≤ totalKey a) new_tokens)
    else do
      let tokens' ← node.out_links.foldlM
        (fun tks link => processLink d (tks node.id) tks link) tokens
      decodeGo d lat rest tokens'

/-- The seeded per-node token lists: the single initial token (history
`[<s>]`, zero state, zero scores) at the initial node, every other list
empty. -/
def initialTokenMap {α σ : Type} [LinearOrderedField α] (d : LatticeDecoder α σ)
    (lat : Lattice α) : TokenMap α σ :=
  fun n => if n = lat.initial_node
    then [Token.init [d.sos_id] d.model.zero_state 0 0 0] else []

/-- `LatticeDecoder.decode(lattice)`: seed the initial token at the
initial node and walk `lattice.sorted_nodes()`. -/
def decode {α σ : Type} [LinearOrderedField α] (d : LatticeDecoder α σ)
    (lat : Lattice α) : Except PyErr (List (Token α σ)) :=
  decodeGo d lat lat.sorted_nodes (initialTokenMap d lat)

/-- Instrumented twin of `decodeGo` that stops at the final node and
returns its raw token list, before the end-of-sequence scoring and the
sort.  Every other step is the identical computation. -/
def reachFinalGo {α σ : Type} [LinearOrderedField α] (d : LatticeDecoder α σ)
    (lat : Lattice α) : List (LatNode α) → TokenMap α σ →
    Except PyErr (List (Token α σ))
  | [], _ => Except.error PyErr.inputError
  | node :: rest, tokens =>
    if (tokens node.id).isEmpty then Except.error PyErr.assertionError
    else if node.id = lat.final_node then Except.ok (tokens node.id)
    else do
      let tokens' ← node.out_links.foldlM
        (fun tks link => processLink d (tks node.id) tks link) tokens
      reachFinalGo d lat rest tokens'

/-- The tokens accumulated at the final node at the moment `decode` reaches
it. -/
def finalNodeTokens {α σ : Type} [LinearOrderedField α] (d : LatticeDecoder α σ)
    (lat : Lattice α) : Except PyErr (List (Token α σ)) :=
  reachFinalGo d lat lat.sorted_nodes (initialTokenMap d lat)

/-- Reachability of a node ID from the lattice's initial node along links. -/
inductive Reach {α : Type} (lat : Lattice α) : Nat → Prop where
  | init : Reach lat lat.initial_node
  | step {m e : Nat} : Reach lat m →
      (∃ node ∈ lat.nodes, node.id = m ∧ ∃ l ∈ node.out_links, l.end_node = e) →
      Reach lat e

/-! ## Explicit-heap model of `Token.copy`

Python's `history` is a reference to a mutable list and `state` is a
reference to an opaque object; `Token.copy` deep-copies the former and
shares the latter.  To reason about the aliasing itself we model the
history store explicitly: a heap of list cells addressed by `Nat`, with
tokens holding addresses. -/

namespace HeapModel

/-- The heap of history-list cells. -/
abbrev Heap := List (List Nat)

/-- A token whose `history` and `state` fields are references into heaps
(the state heap stays abstract: only the address matters), with the three
accumulated scores held by value. -/
structure HToken (α : Type) where
  history : Nat
  state : Nat
  ac_logprob : α
  lat_lm_logprob : α
  nn_lm_logprob : α
deriving DecidableEq

/-- `Token.copy(token)` over the explicit heap: `deepcopy(token.history)`
allocates a fresh cell containing the same list value and the copy holds
the fresh address, while the `state` reference and the scalar scores are
copied as they are. -/
def tokenCopyHeap {α : Type} (h : Heap) (t : HToken α) : Heap × HToken α :=
  (h ++ [(h.get? t.history).getD []], { t with history := h.length })

/-- In-place `list.append(word_id)` on the history cell at `addr`. -/
def heapAppend (h : Heap) (addr : Nat) (word_id : Nat) : Heap :=
  h.set addr ((h.get? addr).getD [] ++ [word_id])

end HeapModel

/-! ## Association-list dictionary lemmas -/

theorem dictGet_append {K V : Type} [DecidableEq K] (d e : List (K × V)) (k : K) :
    dictGet (d ++ e) k = ((dictGet d k).orElse (fun _ => dictGet e k)) := by
  induction d with
  | nil => simp [dictGet]
  | cons p d ih =>
    by_cases hp : p.1 = k
    · simp [dictGet, hp]
    · simp [dictGet, hp, ih]

theorem dictGet_dictInsert {K V : Type} [DecidableEq K] (d : List (K × V)) (k k' : K)
    (v : V) :
    dictGet (dictInsert d k v) k' = if k' = k then some v else dictGet d k' := by
  induction d with
  | nil =>
    by_cases hk : k' = k
    · simp [dictInsert, dictGet, hk]
    · have hkk : ¬ k = k' := fun h => hk h.symm
      simp only [dictInsert, dictGet]
      rw [if_neg hkk, if_neg hk]
  | cons p d ih =>
    by_cases hp : p.1 = k
    · rw [dictInsert, if_pos hp]
      by_cases hk : k' = k
      · simp [dictGet, hk]
      · have hkk : ¬ k = k' := fun h => hk h.symm
        have hpk : ¬ p.1 = k' := by rw [hp]; exact hkk
        simp only [dictGet]
        rw [if_neg hkk, if_neg hk, if_neg hpk]
    · rw [dictInsert, if_neg hp]
      by_cases hk : k' = k
      · subst hk
        simp [dictGet, hp, ih]
      · by_cases hpk : p.1 = k'
        · simp [dictGet, hpk, hk]
        · simp [dictGet, hpk, hk, ih]

theorem dictContains_dictInsert {K V : Type} [DecidableEq K] (d : List (K × V))
    (k k' : K) (v : V) :
    dictContains (dictInsert d k v) k' = (k' = k ∨ dictContains d k' = true : Bool) := by
  simp only [dictContains, dictGet_dictInsert]
  by_cases hk : k' = k <;> simp [hk]

/-- The value of the enumeration-comprehension dictionary: the index paired
with the last matching entry of the reversed pair list, since later
insertions overwrite earlier ones. -/
theorem dictGet_fold_insert (ps : List (Nat × String)) (d : List (String × Nat))
    (w : String) :
    dictGet (ps.foldl (fun d p => dictInsert d p.2 p.1) d) w
      = match ps.reverse.find? (fun p => decide (p.2 = w)) with
        | some p => some p.1
        | none => dictGet d w := by
  induction ps generalizing d with
  | nil => rfl
  | cons p ps ih =>
    rw [List.foldl_cons, ih, List.reverse_cons, List.find?_append]
    cases hf : (ps.reverse.find? fun q => decide (q.2 = w)) with
    | some q => rfl
    | none =>
      simp only [Option.orElse_none, Option.none_orElse]
      rw [dictGet_dictInsert]
      by_cases hw : w = p.2
      · simp [List.find?, hw]
      · have hd : (decide (p.2 = w)) = false :=
          decide_eq_false (fun h : p.2 = w => hw h.symm)
        simp [List.find?, hd, hw]

theorem dictGet_buildWordToId_some (l : List String) (w : String) (i : Nat)
    (h : dictGet (buildWordToId l) w = some i) : l.get? i = some w := by
  unfold buildWordToId at h
  rw [dictGet_fold_insert] at h
  cases hf : (l.enum.reverse.find? fun p => decide (p.2 = w)) with
  | none => rw [hf] at h; simp [dictGet] at h
  | some q =>
    rw [hf] at h
    have hq : q.2 = w := by simpa using List.find?_some hf
    have hmem : q ∈ l.enum := List.mem_reverse.mp (List.mem_of_find?_eq_some hf)
    have hget : l[q.1]? = some q.2 := List.mem_enum_iff_getElem?.mp hmem
    cases h
    rw [List.get?_eq_getElem?, hget, hq]

theorem dictContains_buildWordToId (l : List String) (w : String) :
    dictContains (buildWordToId l) w = true ↔ w ∈ l := by
  constructor
  · intro h
    obtain ⟨i, hi⟩ : ∃ i, dictGet (buildWordToId l) w = some i := by
      cases hg : dictGet (buildWordToId l) w with
      | none => simp [dictContains, hg] at h
      | some i => exact ⟨i, rfl⟩
    exact List.get?_mem (dictGet_buildWordToId_some l w i hi)
  · intro h
    obtain ⟨i, hi⟩ := List.getElem?_of_mem h
    have hfind : (l.enum.reverse.find? fun p => decide (p.2 = w)).isSome := by
      rw [List.find?_isSome]
      exact ⟨(i, w), List.mem_reverse.mpr (List.mem_enum_iff_getElem?.mpr hi), by simp⟩
    unfold dictContains buildWordToId
    rw [dictGet_fold_insert]
    cases hf : (l.enum.reverse.find? fun p => decide (p.2 = w)) with
    | none => rw [hf] at hfind; simp at hfind
    | some q => simp

/-! ## Concrete fixtures for witnesses -/

/-- A length-preserving external model over `ℚ` with `Unit` states: every
target log-probability is `0` and the states are passed through. -/
def nullModel : NNModel ℚ Unit :=
  ⟨(), fun _ _ states _ => (states.map (fun _ => 0), states)⟩

/-- A stand-in arithmetic backend over `ℚ` for exercising the decoding
structure on concrete inputs (`exp` constantly one keeps the direct path
taken; the decoding-structure theorems do not depend on its values). -/
def qBackend : FloatBackend ℚ :=
  ⟨fun _ => 1, fun _ => 0, fun _ => 1, fun _ => 0⟩

/-- A small vocabulary: the three specials plus the word `cat`. -/
def vocabW : Vocabulary :=
  (vocabInit ["cat"] [("cat", 0)] [WordClass.init 0 0 1]).toOption.getD default

/-- A concrete decoder over that vocabulary (`<s>` is word 0, `</s>` is
word 1, as `decoderInit` would resolve them). -/
def decW : LatticeDecoder ℚ Unit := ⟨nullModel, vocabW, 1, qBackend, 0, 1⟩

/-! ## Inversion and membership lemmas for `Vocabulary.__init__` -/

theorem exceptBind_ok {E A B : Type} (a : A) (f : A → Except E B) :
    (Except.ok a >>= f) = f a := rfl

theorem exceptBind_error {E A B : Type} (e : E) (f : A → Except E B) :
    ((Except.error e : Except E A) >>= f) = Except.error e := rfl

theorem vocabInit_ok_iff (itw : List String) (wtc : List (String × Nat))
    (wcs : List WordClass) (v : Vocabulary) :
    vocabInit itw wtc wcs = Except.ok v ↔
      ∃ w2c shifted,
        inputClassIds wtc (specialsState wtc).2.1.length itw (specialsState wtc).2.2
          = Except.ok w2c
        ∧ shiftClasses (specialsState wtc).1.length wcs = Except.ok shifted
        ∧ v = ⟨(specialsState wtc).1 ++ itw, (specialsState wtc).2.1 ++ shifted, w2c,
            buildWordToId ((specialsState wtc).1 ++ itw),
            (specialsState wtc).1.length, (specialsState wtc).2.1.length⟩ := by
  unfold vocabInit
  cases h1 : inputClassIds wtc (specialsState wtc).2.1.length itw (specialsState wtc).2.2 with
  | error e => simp [h1, exceptBind_error]
  | ok w2c =>
    cases h2 : shiftClasses (specialsState wtc).1.length wcs with
    | error e => simp [h1, h2, exceptBind_ok, exceptBind_error]
    | ok shifted =>
      rw [exceptBind_ok, exceptBind_ok]
      constructor
      · intro h
        injection h with h
        exact ⟨w2c, shifted, rfl, rfl, h.symm⟩
      · rintro ⟨w2c', shifted', hw, hs, rfl⟩
        cases hw
        cases hs
        rfl

theorem addSpecial_itw_mono (wtc : List (String × Nat))
    (st : List String × List WordClass × List Nat) (w w' : String)
    (h : w' ∈ st.1) : w' ∈ (addSpecial wtc st w).1 := by
  unfold addSpecial
  split
  · exact h
  · exact List.mem_append_left _ h

theorem addSpecial_mem_self (wtc : List (String × Nat))
    (st : List String × List WordClass × List Nat) (w : String)
    (hc : dictContains wtc w = false) : w ∈ (addSpecial wtc st w).1 := by
  simp [addSpecial, hc]

/-- Every special word that has no input class assignment is placed into
`id_to_word` by the special-word blocks. -/
theorem specials_fold_mem (wtc : List (String × Nat)) (w : String)
    (hw : w ∈ specialWords) (hc : dictContains wtc w = false) :
    w ∈ (specialsState wtc).1 := by
  have hfold : specialsState wtc
      = addSpecial wtc (addSpecial wtc (addSpecial wtc ([], [], []) "<s>") "</s>") "<unk>" := rfl
  rw [hfold]
  simp only [specialWords, List.mem_cons, List.not_mem_nil, or_false] at hw
  rcases hw with rfl | rfl | rfl
  · exact addSpecial_itw_mono _ _ _ _
      (addSpecial_itw_mono _ _ _ _ (addSpecial_mem_self _ _ _ hc))
  · exact addSpecial_itw_mono _ _ _ _ (addSpecial_mem_self _ _ _ hc)
  · exact addSpecial_mem_self _ _ _ hc

/-! ## Claim C10: blank lines in vocabulary files -/

/-- Claim C10: `from_file` silently skips lines that are empty or contain
only whitespace, for every input format — the vocabulary built with such a
line present is identical to the one built without it, so the line
contributes no word and no class. -/
theorem from_file_skips_blank_lines (pre post : List String) (input_format : String)
    (blank : String) (hblank : pySplit blank = []) :
    fromFile (pre ++ blank :: post) input_format = fromFile (pre ++ post) input_format := by
  have hstep : ∀ st : FState, processLine input_format st blank = Except.ok st := by
    intro st
    simp [processLine, hblank]
  unfold fromFile
  have hfold : (pre ++ blank :: post).foldlM (processLine input_format)
        (⟨[], [], [], []⟩ : FState)
      = (pre ++ post).foldlM (processLine input_format) ⟨[], [], [], []⟩ := by
    rw [List.foldlM_append, List.foldlM_append]
    refine congrArg (fun k => pre.foldlM (processLine input_format)
      (⟨[], [], [], []⟩ : FState) >>= k) (funext fun st => ?_)
    rw [List.foldlM_cons, hstep st, exceptBind_ok]
  rw [hfold]

/-- Witness for C10: a whitespace-only line between two class-file lines. -/
theorem from_file_skips_blank_lines_witness :
    fromFile (["a 0"] ++ "  " :: ["b 1"]) "classes"
      = fromFile (["a 0"] ++ ["b 1"]) "classes" :=
  from_file_skips_blank_lines ["a 0"] ["b 1"] "classes" "  " (by decide)

/-! ## Claim C7: ID round-trip and the `<unk>` default -/

/-- Claim C7: in a vocabulary built by `Vocabulary.__init__` from factory
input (every word with a class assignment is listed in `id_to_word`, as
all factories guarantee), translating a present word to its ID and back
through `id_to_word` returns the word, and `words_to_ids` maps an absent
word to the reserved `<unk>` ID. -/
theorem word_id_roundtrip_and_unk_default (itw : List String)
    (wtc : List (String × Nat)) (wcs : List WordClass) (v : Vocabulary)
    (hok : vocabInit itw wtc wcs = Except.ok v)
    (hunk : dictContains wtc "<unk>" = true → "<unk>" ∈ itw) :
    (∀ w i, dictGet v.word_to_id w = some i → v.id_to_word.get? i = some w)
    ∧ ∃ unk_id, dictGet v.word_to_id "<unk>" = some unk_id ∧
        ∀ w, dictGet v.word_to_id w = none →
          v.wordsToIds [w] = Except.ok [unk_id] := by
  obtain ⟨w2c, shifted, h1, h2, rfl⟩ := (vocabInit_ok_iff itw wtc wcs v).mp hok
  constructor
  · intro w i h
    exact dictGet_buildWordToId_some _ w i h
  · have hmem : "<unk>" ∈ (specialsState wtc).1 ++ itw := by
      by_cases hc : dictContains wtc "<unk>"
      · exact List.mem_append_right _ (hunk hc)
      · exact List.mem_append_left _
          (specials_fold_mem wtc _ (by simp [specialWords])
            (Bool.not_eq_true _ ▸ hc))
    have hcont : dictContains (buildWordToId ((specialsState wtc).1 ++ itw)) "<unk>" = true :=
      (dictContains_buildWordToId _ _).mpr hmem
    obtain ⟨unk_id, hu⟩ : ∃ u,
        dictGet (buildWordToId ((specialsState wtc).1 ++ itw)) "<unk>" = some u := by
      cases hg : dictGet (buildWordToId ((specialsState wtc).1 ++ itw)) "<unk>" with
      | none => rw [dictContains, hg] at hcont; simp at hcont
      | some u => exact ⟨u, rfl⟩
    refine ⟨unk_id, hu, fun w hw => ?_⟩
    simp [Vocabulary.wordsToIds, hu, orErr, hw, exceptBind_ok]

/-- Witness for C7 at a concrete one-word vocabulary. -/
theorem word_id_roundtrip_and_unk_default_witness :
    (∀ w i, dictGet vocabW.word_to_id w = some i → vocabW.id_to_word.get? i = some w)
    ∧ ∃ unk_id, dictGet vocabW.word_to_id "<unk>" = some unk_id ∧
        ∀ w, dictGet vocabW.word_to_id w = none →
          vocabW.wordsToIds [w] = Except.ok [unk_id] :=
  word_id_roundtrip_and_unk_default ["cat"] [("cat", 0)] [WordClass.init 0 0 1] vocabW
    (by with_unfolding_all rfl) (by decide)

/-! ## Claim C8: the class-label lookup (code bug) -/

/-- The vocabulary `from_file` builds from the `classes`-format file
`a 0 / b 0 / c 1`: words `a`,`b` share class 3, word `c` is alone in
class 4. -/
def v8 : Vocabulary :=
  ⟨["<s>", "</s>", "<unk>", "a", "b", "c"],
   [⟨IdVal.pyBuiltinId, [(0, 1)]⟩, ⟨IdVal.pyBuiltinId, [(1, 1)]⟩,
    ⟨IdVal.pyBuiltinId, [(2, 1)]⟩,
    ⟨IdVal.pyBuiltinId, [(3, 1/2), (4, 1/2)]⟩,
    ⟨IdVal.pyBuiltinId, [(5, 1)]⟩],
   [0, 1, 2, 3, 3, 4],
   [("<s>", 0), ("</s>", 1), ("<unk>", 2), ("a", 3), ("b", 4), ("c", 5)],
   3, 3⟩

/-- Claim C8 is what the docstrings promise, but the code delivers none of
it on this vocabulary: `word_ids_to_classes` subscripts `_word_classes`
with the **word** ID instead of the word's class ID, and `_class_name`
formats `word_class.id`, which `WordClass.__init__` set to the builtin
`id` function.  Concretely: word 3 (`a`, in two-member class 3) raises
`TypeError` from the `CLASS-{0:05d}` format; word 4 (`b`, also class 3) is
reported as `c` — the sole member of the class at index 4; word 5 (`c`,
class 4) raises `IndexError` because there is no class at index 5. -/
theorem word_ids_to_classes_bug :
    fromFile ["a 0", "b 0", "c 1"] "classes" = Except.ok v8
    ∧ v8.word_id_to_class_id.get? 3 = some 3
    ∧ v8.word_classes.get? 3 = some ⟨IdVal.pyBuiltinId, [(3, 1/2), (4, 1/2)]⟩
    ∧ v8.wordIdsToClasses [3] = Except.error PyErr.typeError
    ∧ v8.id_to_word.get? 4 = some "b"
    ∧ v8.word_id_to_class_id.get? 4 = some 3
    ∧ v8.wordIdsToClasses [4] = Except.ok ["c"]
    ∧ v8.word_id_to_class_id.get? 5 = some 4
    ∧ v8.word_classes.get? 4 = some ⟨IdVal.pyBuiltinId, [(5, 1)]⟩
    ∧ v8.word_classes.length = 5
    ∧ v8.wordIdsToClasses [5] = Except.error PyErr.indexError := by
  refine ⟨?_, ?_, ?_, ?_, ?_, ?_, ?_, ?_, ?_, ?_, ?_⟩ <;> with_unfolding_all rfl

/-! ## Claim C3: special words across the factories -/

/-- The vocabulary `from_file` builds from the `classes`-format file
`<s> 0 / foo 0`: the special word `<s>` arrives with an input class
assignment, so `__init__` does not prepend it, and it shares class 2 with
`foo` at probability 1/2. -/
def v3 : Vocabulary :=
  ⟨["</s>", "<unk>", "<s>", "foo"],
   [⟨IdVal.pyBuiltinId, [(0, 1)]⟩, ⟨IdVal.pyBuiltinId, [(1, 1)]⟩,
    ⟨IdVal.pyBuiltinId, [(2, 1/2), (3, 1/2)]⟩],
   [0, 1, 2, 2],
   [("</s>", 0), ("<unk>", 1), ("<s>", 2), ("foo", 3)],
   2, 2⟩

theorem addSpecial_fst (wtc : List (String × Nat))
    (st : List String × List WordClass × List Nat) (w : String) :
    (addSpecial wtc st w).1
      = st.1 ++ (if dictContains wtc w then [] else [w]) := by
  unfold addSpecial
  split <;> simp_all

theorem foldl_addSpecial_fst (wtc : List (String × Nat)) (ws : List String)
    (st : List String × List WordClass × List Nat) :
    (ws.foldl (addSpecial wtc) st).1
      = st.1 ++ ws.filter (fun w => ! dictContains wtc w) := by
  induction ws generalizing st with
  | nil => simp
  | cons w ws ih =>
    rw [List.foldl_cons, ih, addSpecial_fst, List.filter_cons]
    by_cases hc : dictContains wtc w <;> simp [hc]

theorem foldl_addSpecial_state (wtc : List (String × Nat)) (ws : List String)
    (st : List String × List WordClass × List Nat)
    (h2 : st.2.2 = List.range st.1.length)
    (h3 : st.2.1 = (List.range st.1.length).map (fun i => WordClass.init i i 1)) :
    (ws.foldl (addSpecial wtc) st).2.2
        = List.range (ws.foldl (addSpecial wtc) st).1.length
    ∧ (ws.foldl (addSpecial wtc) st).2.1
        = (List.range (ws.foldl (addSpecial wtc) st).1.length).map
            (fun i => WordClass.init i i 1) := by
  induction ws generalizing st with
  | nil => exact ⟨h2, h3⟩
  | cons w ws ih =>
    rw [List.foldl_cons]
    refine ih (addSpecial wtc st w) ?_ ?_ <;>
      · unfold addSpecial
        split
        · simp [h2, h3]
        · simp [h2, h3, List.range_succ]

/-- The special-word blocks leave exactly the specials without an input
class assignment, in order, with word ID = class ID = position and a fresh
probability-1 singleton class each. -/
theorem specialsState_inv (wtc : List (String × Nat)) :
    (specialsState wtc).1 = specialWords.filter (fun w => ! dictContains wtc w)
    ∧ (specialsState wtc).2.2 = List.range (specialsState wtc).1.length
    ∧ (specialsState wtc).2.1
        = (List.range (specialsState wtc).1.length).map (fun i => WordClass.init i i 1) := by
  refine ⟨?_, ?_⟩
  · simpa using foldl_addSpecial_fst wtc specialWords ([], [], [])
  · exact foldl_addSpecial_state wtc specialWords ([], [], []) rfl rfl

theorem inputClassIds_mem_contains (wtc : List (String × Nat)) (k : Nat)
    (itw : List String) (acc w2c : List Nat)
    (h : inputClassIds wtc k itw acc = Except.ok w2c) :
    ∀ w ∈ itw, dictContains wtc w = true := by
  induction itw generalizing acc with
  | nil => simp
  | cons x xs ih =>
    intro w hw
    unfold inputClassIds at h
    rw [List.foldlM_cons] at h
    cases hg : dictGet wtc x with
    | none => simp [orErr, hg, exceptBind_error] at h
    | some c =>
      simp only [orErr, hg, exceptBind_ok] at h
      rcases List.mem_cons.mp hw with rfl | hmem
      · simp [dictContains, hg]
      · exact ih (acc ++ [k + c]) h w hmem

theorem inputClassIds_prefix (wtc : List (String × Nat)) (k : Nat)
    (itw : List String) (acc w2c : List Nat)
    (h : inputClassIds wtc k itw acc = Except.ok w2c) : acc <+: w2c := by
  induction itw generalizing acc with
  | nil =>
    unfold inputClassIds at h
    rw [List.foldlM_nil] at h
    cases h
    exact List.prefix_refl _
  | cons x xs ih =>
    unfold inputClassIds at h
    rw [List.foldlM_cons] at h
    cases hg : dictGet wtc x with
    | none => simp [orErr, hg, exceptBind_error] at h
    | some c =>
      simp only [orErr, hg, exceptBind_ok] at h
      exact (List.prefix_append acc [k + c]).trans (ih (acc ++ [k + c]) h)

theorem dictGet_buildWordToId_unique (l : List String) (w : String) (i : Nat)
    (hi : l.get? i = some w) (huniq : ∀ j, l.get? j = some w → j = i) :
    dictGet (buildWordToId l) w = some i := by
  have hcont := (dictContains_buildWordToId l w).mpr (List.get?_mem hi)
  cases hg : dictGet (buildWordToId l) w with
  | none => rw [dictContains, hg] at hcont; simp at hcont
  | some j =>
    have := dictGet_buildWordToId_some l w j hg
    rw [huniq j this]

/-- The amended C3, at the `__init__` level: provided every word carrying a
class assignment is listed in `id_to_word` (true of all factory inputs),
the three special words are present; `first_normal_word_id` and
`first_normal_class_id` coincide and equal the number of special entries
inserted (at most 3); and every inserted entry `i` is a special word with
word ID = class ID = `i` in its own singleton class of probability 1. -/
theorem vocabInit_specials (itw : List String) (wtc : List (String × Nat))
    (wcs : List WordClass) (v : Vocabulary)
    (hok : vocabInit itw wtc wcs = Except.ok v)
    (hcov : ∀ w, dictContains wtc w = true → w ∈ itw) :
    (∀ w ∈ specialWords, v.containsWord w = true)
    ∧ v.first_normal_word_id = v.first_normal_class_id
    ∧ v.first_normal_word_id ≤ 3
    ∧ (∀ i, i < v.first_normal_word_id →
        v.word_id_to_class_id.get? i = some i
        ∧ v.word_classes.get? i = some ⟨IdVal.pyBuiltinId, [(i, 1)]⟩
        ∧ ∃ w ∈ specialWords, dictGet v.word_to_id w = some i) := by
  obtain ⟨w2c, shifted, h1, h2, rfl⟩ := (vocabInit_ok_iff itw wtc wcs v).mp hok
  obtain ⟨hfst, hw2c, hwcs⟩ := specialsState_inv wtc
  have hnodupsp : specialWords.Nodup := by decide
  have hnodup : (specialsState wtc).1.Nodup := hfst ▸ hnodupsp.filter _
  have hmemitw := inputClassIds_mem_contains wtc (specialsState wtc).2.1.length itw
    (specialsState wtc).2.2 w2c h1
  refine ⟨?_, ?_, ?_, ?_⟩
  · intro w hw
    have hmem : w ∈ (specialsState wtc).1 ++ itw := by
      by_cases hc : dictContains wtc w
      · exact List.mem_append_right _ (hcov w hc)
      · refine List.mem_append_left _ ?_
        rw [hfst]
        exact List.mem_filter.mpr ⟨hw, by simp [hc]⟩
    exact (dictContains_buildWordToId _ _).mpr hmem
  · show (specialsState wtc).1.length = (specialsState wtc).2.1.length
    rw [hwcs]
    simp
  · show (specialsState wtc).1.length ≤ 3
    rw [hfst]
    calc (specialWords.filter _).length ≤ specialWords.length := List.length_filter_le _ _
    _ = 3 := rfl
  · intro i hi
    have hi' : i < (specialsState wtc).1.length := hi
    refine ⟨?_, ?_, ?_⟩
    · show w2c.get? i = some i
      obtain ⟨tail, htail⟩ := inputClassIds_prefix wtc _ itw _ w2c h1
      rw [← htail, List.get?_eq_getElem?, List.getElem?_append_left, ← List.get?_eq_getElem?]
      · rw [hw2c, List.get?_eq_getElem?, List.getElem?_range hi']
      · rw [hw2c]; simpa using hi'
    · show ((specialsState wtc).2.1 ++ shifted).get? i = some _
      rw [List.get?_eq_getElem?, List.getElem?_append_left, hwcs]
      · simp [List.getElem?_range hi', WordClass.init]
      · rw [hwcs]; simpa using hi'
    · obtain ⟨w, hw⟩ : ∃ w, (specialsState wtc).1.get? i = some w := by
        rw [List.get?_eq_getElem?]
        exact ⟨_, List.getElem?_eq_getElem hi'⟩
      have hwmem : w ∈ (specialsState wtc).1 := List.get?_mem hw
      have hwsp : w ∈ specialWords ∧ dictContains wtc w = false := by
        have := hfst ▸ hwmem
        have hmf := List.mem_filter.mp this
        exact ⟨hmf.1, by simpa using hmf.2⟩
      refine ⟨w, hwsp.1, ?_⟩
      apply dictGet_buildWordToId_unique
      · rw [List.get?_eq_getElem?, List.getElem?_append_left hi', ← List.get?_eq_getElem?]
        exact hw
      · intro j hj
        by_cases hjlt : j < (specialsState wtc).1.length
        · rw [List.get?_eq_getElem?, List.getElem?_append_left hjlt,
            ← List.get?_eq_getElem?] at hj
          apply List.getElem?_inj hjlt hnodup
          rw [← List.get?_eq_getElem?, ← List.get?_eq_getElem?, hj, hw]
        · exfalso
          rw [List.get?_eq_getElem?,
            List.getElem?_append_right (Nat.le_of_not_lt hjlt)] at hj
          have : w ∈ itw := List.get?_mem (by rw [List.get?_eq_getElem?]; exact hj)
          have := hmemitw w this
          rw [hwsp.2] at this
          exact Bool.false_ne_true this

/-- A vocabulary produced by one of the factory procedures (`from_file`,
`from_word_counts`, `from_corpus`). -/
def FactoryBuilt (v : Vocabulary) : Prop :=
  (∃ lines input_format, fromFile lines input_format = Except.ok v)
  ∨ (∃ word_counts num_classes, fromWordCounts word_counts num_classes = Except.ok v)
  ∨ (∃ input_files num_classes, fromCorpus input_files num_classes = Except.ok v)

/-- Error-monad fold invariant: a property preserved by every successful
step holds for the result of a successful `foldlM`. -/
theorem foldlM_except_inv {S A : Type} (f : S → A → Except PyErr S) (P : S → Prop)
    (hf : ∀ s a s', f s a = Except.ok s' → P s → P s') :
    ∀ (l : List A) (s0 s1), l.foldlM f s0 = Except.ok s1 → P s0 → P s1 := by
  intro l
  induction l with
  | nil =>
    intro s0 s1 h hP
    rw [List.foldlM_nil] at h
    cases h
    exact hP
  | cons a l ih =>
    intro s0 s1 h hP
    rw [List.foldlM_cons] at h
    cases hstep : f s0 a with
    | error e => rw [hstep] at h; simp [exceptBind_error] at h
    | ok s0' =>
      rw [hstep, exceptBind_ok] at h
      exact ih s0' s1 h (hf s0 a s0' hstep hP)

/-- Every word `from_file`'s loop assigns a class to is also appended to
the word list. -/
theorem processLine_cov (input_format : String) (st : FState) (line : String)
    (st' : FState) (h : processLine input_format st line = Except.ok st')
    (hP : ∀ w, dictContains st.wtc w = true → w ∈ st.itw) :
    ∀ w, dictContains st'.wtc w = true → w ∈ st'.itw := by
  unfold processLine at h
  by_cases hf : pySplit line = []
  · simp only [hf, if_pos rfl] at h
    cases h
    exact hP
  · simp only [hf, if_neg (by simpa using hf)] at h
    cases hp : parseFields input_format (pySplit line) with
    | error e => rw [hp] at h; simp [exceptBind_error] at h
    | ok t =>
      rw [hp, exceptBind_ok] at h
      obtain ⟨word, file_id, prob⟩ := t
      simp only at h
      by_cases hdup : dictContains st.wtc word
      · simp [hdup] at h
      · simp only [hdup, Bool.false_eq_true, if_false] at h
        cases hm : file_id.bind (dictGet st.f2c) with
        | some class_id =>
          rw [hm] at h
          cases h
          intro w hcw
          rw [dictContains_dictInsert] at hcw
          simp only [decide_eq_true_eq, Bool.or_eq_true] at hcw
          rcases hcw with rfl | hcw
          · simp
          · exact List.mem_append_left _ (hP w (by simpa using hcw))
        | none =>
          rw [hm] at h
          cases h
          intro w hcw
          rw [dictContains_dictInsert] at hcw
          simp only [decide_eq_true_eq, Bool.or_eq_true] at hcw
          rcases hcw with rfl | hcw
          · simp
          · exact List.mem_append_left _ (hP w (by simpa using hcw))

theorem fromFile_ok_inv (lines : List String) (input_format : String) (v : Vocabulary)
    (h : fromFile lines input_format = Except.ok v) :
    ∃ st, lines.foldlM (processLine input_format) (⟨[], [], [], []⟩ : FState)
        = Except.ok st
      ∧ vocabInit st.itw st.wtc st.wcs = Except.ok v := by
  unfold fromFile at h
  revert h
  cases hf : lines.foldlM (processLine input_format) (⟨[], [], [], []⟩ : FState) with
  | error e => intro h; simp [exceptBind_error] at h
  | ok st =>
    intro h
    rw [exceptBind_ok] at h
    exact ⟨st, rfl, h⟩

theorem wordCountStep_cov (n : Nat) (st : WCState) (wp : String × Nat) (st' : WCState)
    (h : wordCountStep n st wp = Except.ok st')
    (hP : ∀ w, dictContains st.wtc w = true → w ∈ st.itw) :
    ∀ w, dictContains st'.wtc w = true → w ∈ st'.itw := by
  unfold wordCountStep at h
  by_cases hn : n = 0
  · simp [hn] at h
  · simp only [hn, if_neg hn, if_false] at h
    cases h
    intro w hcw
    rw [dictContains_dictInsert] at hcw
    simp only [decide_eq_true_eq, Bool.or_eq_true] at hcw
    rcases hcw with rfl | hcw
    · simp
    · exact List.mem_append_left _ (hP w (by simpa using hcw))

theorem fromWordCounts_ok_inv (word_counts : List (String × Nat)) (num_classes : Option Nat)
    (v : Vocabulary) (h : fromWordCounts word_counts num_classes = Except.ok v) :
    ∃ st, (List.insertionSort (fun a b : String × Nat => a.2 ≤ b.2) word_counts).foldlM
        (wordCountStep (num_classes.getD word_counts.length)) ⟨[], [], [], 0⟩
        = Except.ok st
      ∧ vocabInit st.itw st.wtc st.wcs = Except.ok v := by
  unfold fromWordCounts at h
  revert h
  cases hf : (List.insertionSort (fun a b : String × Nat => a.2 ≤ b.2) word_counts).foldlM
      (wordCountStep (num_classes.getD word_counts.length)) ⟨[], [], [], 0⟩ with
  | error e => intro h; simp [exceptBind_error] at h
  | ok st =>
    intro h
    rw [exceptBind_ok] at h
    exact ⟨st, rfl, h⟩

/-- Claim C3 (amended): in every factory-built vocabulary the special words
`<s>`, `</s>`, `<unk>` are present; `first_normal_word_id` and
`first_normal_class_id` coincide and equal the number of special entries
inserted (at most three — a special word already carrying an input class
assignment is not re-inserted and keeps its input class); and each
inserted special entry `i` is a special word whose word ID and class ID
are both `i`, in its own singleton class with membership probability
1.0. -/
theorem factory_specials_present_and_inserted_singletons (v : Vocabulary)
    (h : FactoryBuilt v) :
    (∀ w ∈ specialWords, v.containsWord w = true)
    ∧ v.first_normal_word_id = v.first_normal_class_id
    ∧ v.first_normal_word_id ≤ 3
    ∧ (∀ i, i < v.first_normal_word_id →
        v.word_id_to_class_id.get? i = some i
        ∧ v.word_classes.get? i = some ⟨IdVal.pyBuiltinId, [(i, 1)]⟩
        ∧ ∃ w ∈ specialWords, dictGet v.word_to_id w = some i) := by
  have hwc : ∀ counts n, fromWordCounts counts n = Except.ok v →
      (∀ w ∈ specialWords, v.containsWord w = true)
      ∧ v.first_normal_word_id = v.first_normal_class_id
      ∧ v.first_normal_word_id ≤ 3
      ∧ (∀ i, i < v.first_normal_word_id →
          v.word_id_to_class_id.get? i = some i
          ∧ v.word_classes.get? i = some ⟨IdVal.pyBuiltinId, [(i, 1)]⟩
          ∧ ∃ w ∈ specialWords, dictGet v.word_to_id w = some i) := by
    intro counts n hf
    obtain ⟨st, hfold, hinit⟩ := fromWordCounts_ok_inv counts n v hf
    refine vocabInit_specials _ _ _ _ hinit ?_
    exact foldlM_except_inv _ (fun st => ∀ w, dictContains st.wtc w = true → w ∈ st.itw)
      (wordCountStep_cov _) _ _ _ hfold (by intro w hw; simp [dictContains, dictGet] at hw)
  rcases h with ⟨lines, input_format, hf⟩ | ⟨counts, n, hf⟩ | ⟨files, n, hf⟩
  · obtain ⟨st, hfold, hinit⟩ := fromFile_ok_inv lines input_format v hf
    refine vocabInit_specials _ _ _ _ hinit ?_
    exact foldlM_except_inv _ (fun st => ∀ w, dictContains st.wtc w = true → w ∈ st.itw)
      (processLine_cov input_format) _ _ _ hfold
      (by intro w hw; simp [dictContains, dictGet] at hw)
  · exact hwc counts n hf
  · exact hwc (corpusCounts files) n hf

/-- Witness for the amended C3: the `words`-format factory on a one-word
file. -/
theorem factory_specials_witness :
    (∀ w ∈ specialWords, vocabW.containsWord w = true)
    ∧ vocabW.first_normal_word_id = vocabW.first_normal_class_id
    ∧ vocabW.first_normal_word_id ≤ 3
    ∧ (∀ i, i < vocabW.first_normal_word_id →
        vocabW.word_id_to_class_id.get? i = some i
        ∧ vocabW.word_classes.get? i = some ⟨IdVal.pyBuiltinId, [(i, 1)]⟩
        ∧ ∃ w ∈ specialWords, dictGet vocabW.word_to_id w = some i) :=
  factory_specials_present_and_inserted_singletons vocabW
    (Or.inl ⟨["cat"], "words", by with_unfolding_all rfl⟩)

/-- Counterexample to C3 as stated: a `from_file`-built vocabulary in which
`<s>` is **not** in a singleton class and its membership probability is
1/2, not 1.0.  (Its `first_normal` markers still equal the number of
entries actually inserted, here 2.) -/
theorem special_word_shared_class_counterexample :
    fromFile ["<s> 0", "foo 0"] "classes" = Except.ok v3
    ∧ dictGet v3.word_to_id "<s>" = some 2
    ∧ v3.word_id_to_class_id.get? 2 = some 2
    ∧ v3.word_classes.get? 2 = some ⟨IdVal.pyBuiltinId, [(2, 1/2), (3, 1/2)]⟩
    ∧ (⟨IdVal.pyBuiltinId, [(2, 1/2), (3, 1/2)]⟩ : WordClass).probs.length ≠ 1
    ∧ dictGet (⟨IdVal.pyBuiltinId, [(2, 1/2), (3, 1/2)]⟩ : WordClass).probs 2 ≠ some 1 := by
  refine ⟨?_, ?_, ?_, ?_, ?_, ?_⟩
  · with_unfolding_all rfl
  · with_unfolding_all rfl
  · with_unfolding_all rfl
  · with_unfolding_all rfl
  · decide
  · intro h
    rw [show dictGet (⟨IdVal.pyBuiltinId, [(2, 1/2), (3, 1/2)]⟩ : WordClass).probs 2
        = some (1/2) from rfl] at h
    injection h with h
    norm_num at h

/-! ## Claim theorems -/

/-- Claim C4: after `compute_total_logprob` with `nn_lm_weight = 1.0` the
total is `ac_logprob + lm_scale * nn_lm_logprob`, and with
`nn_lm_weight = 0.0` it is `ac_logprob + lm_scale * lat_lm_logprob` — on
the direct floating-point path and on the arbitrary-precision fallback
path alike (both modelled at ideal precision over `ℝ`, where the claimed
equalities are exact). -/
theorem compute_total_logprob_weight_endpoints :
    ∀ (lat nn lm_scale ac : ℝ) (σ : Type) (st : σ) (hist : List Nat) (tot : Option ℝ),
      lmLogprobDirect ⟨Real.exp, Real.log, Real.exp, Real.log⟩ 1 lat nn = nn
      ∧ lmLogprobFallback ⟨Real.exp, Real.log, Real.exp, Real.log⟩ 1 lat nn = nn
      ∧ lmLogprobDirect ⟨Real.exp, Real.log, Real.exp, Real.log⟩ 0 lat nn = lat
      ∧ lmLogprobFallback ⟨Real.exp, Real.log, Real.exp, Real.log⟩ 0 lat nn = lat
      ∧ (Token.computeTotalLogprob ⟨Real.exp, Real.log, Real.exp, Real.log⟩
            (⟨hist, st, ac, lat, nn, tot⟩ : Token ℝ σ) 1 lm_scale).total_logprob
          = some (ac + lm_scale * nn)
      ∧ (Token.computeTotalLogprob ⟨Real.exp, Real.log, Real.exp, Real.log⟩
            (⟨hist, st, ac, lat, nn, tot⟩ : Token ℝ σ) 0 lm_scale).total_logprob
          = some (ac + lm_scale * lat) := by
  intro lat nn lm_scale ac σ st hist tot
  have hdir1 : lmLogprobDirect ⟨Real.exp, Real.log, Real.exp, Real.log⟩ 1 lat nn = nn := by
    simp [lmLogprobDirect, Real.log_exp]
  have hdir0 : lmLogprobDirect ⟨Real.exp, Real.log, Real.exp, Real.log⟩ 0 lat nn = lat := by
    simp [lmLogprobDirect, Real.log_exp]
  have hfb1 : lmLogprobFallback ⟨Real.exp, Real.log, Real.exp, Real.log⟩ 1 lat nn = nn := by
    simp [lmLogprobFallback, Real.log_exp]
  have hfb0 : lmLogprobFallback ⟨Real.exp, Real.log, Real.exp, Real.log⟩ 0 lat nn = lat := by
    simp [lmLogprobFallback, Real.log_exp]
  refine ⟨hdir1, hfb1, hdir0, hfb0, ?_, ?_⟩
  · show (if 0 < Real.exp lat ∧ 0 < Real.exp nn then
        lmLogprobDirect ⟨Real.exp, Real.log, Real.exp, Real.log⟩ 1 lat nn
      else lmLogprobFallback ⟨Real.exp, Real.log, Real.exp, Real.log⟩ 1 lat nn) * lm_scale
      |> (fun x => some (ac + x) = some (ac + lm_scale * nn))
    split
    · rw [hdir1]; ring_nf
    · rw [hfb1]; ring_nf
  · show (if 0 < Real.exp lat ∧ 0 < Real.exp nn then
        lmLogprobDirect ⟨Real.exp, Real.log, Real.exp, Real.log⟩ 0 lat nn
      else lmLogprobFallback ⟨Real.exp, Real.log, Real.exp, Real.log⟩ 0 lat nn) * lm_scale
      |> (fun x => some (ac + x) = some (ac + lm_scale * lat))
    split
    · rw [hdir0]; ring_nf
    · rw [hfb0]; ring_nf

/-- Claim C5: across a link whose word starts with `'!'`, the propagated
tokens get the link's acoustic and lattice-LM log-probabilities added to
`ac_logprob` and `lat_lm_logprob`, their histories, states and
`nn_lm_logprob` are unchanged, and no external-model scoring happens (the
result does not depend on the decoder's model, vocabulary or weight at
all). -/
theorem null_link_skips_model_scoring {α σ : Type} [LinearOrderedField α]
    (d : LatticeDecoder α σ) (node_tokens : List (Token α σ))
    (tokens : TokenMap α σ) (link : Link α)
    (hbang : pyStartsWith link.word "!" = true) :
    ∃ new_tokens : List (Token α σ),
      processLink d node_tokens tokens link =
        Except.ok (fun n => if n = link.end_node then tokens n ++ new_tokens else tokens n)
      ∧ new_tokens.map (fun t => t.history) = node_tokens.map (fun t => t.history)
      ∧ new_tokens.map (fun t => t.state) = node_tokens.map (fun t => t.state)
      ∧ new_tokens.map (fun t => t.nn_lm_logprob) = node_tokens.map (fun t => t.nn_lm_logprob)
      ∧ new_tokens.map (fun t => t.ac_logprob)
          = node_tokens.map (fun t => t.ac_logprob + link.ac_logprob)
      ∧ new_tokens.map (fun t => t.lat_lm_logprob)
          = node_tokens.map (fun t => t.lat_lm_logprob + link.lm_logprob)
      ∧ ∀ d' : LatticeDecoder α σ,
          processLink d' node_tokens tokens link = processLink d node_tokens tokens link := by
  refine ⟨node_tokens.map (fun t =>
    let c := Token.copy t
    { c with
        ac_logprob := c.ac_logprob + link.ac_logprob
        lat_lm_logprob := c.lat_lm_logprob + link.lm_logprob }), ?_, ?_, ?_, ?_, ?_, ?_, ?_⟩
  · simp only [processLink, hbang, if_true]
    rfl
  · simp [List.map_map]
    intro a _
    rfl
  · simp [List.map_map]
    intro a _
    rfl
  · simp [List.map_map]
    intro a _
    rfl
  · simp [List.map_map]
    intro a _
    rfl
  · simp [List.map_map]
    intro a _
    rfl
  · intro d'
    simp [processLink, hbang]

/-- Witness for C5 at a concrete decoder, token list and `'!'`-link. -/
theorem null_link_skips_model_scoring_witness :
    ∃ new_tokens : List (Token ℚ Unit),
      processLink decW [Token.init [0] () 0 0 0] (fun _ => []) ⟨"!NULL", -1, -2, 5⟩ =
        Except.ok (fun n => if n = (5 : Nat) then
          (fun _ => ([] : List (Token ℚ Unit))) n ++ new_tokens
          else (fun _ => ([] : List (Token ℚ Unit))) n)
      ∧ new_tokens.map (fun t => t.history)
          = [Token.init [0] () 0 0 0].map (fun t => t.history)
      ∧ new_tokens.map (fun t => t.state)
          = [Token.init [0] () 0 0 0].map (fun t => t.state)
      ∧ new_tokens.map (fun t => t.nn_lm_logprob)
          = [Token.init [0] () 0 0 0].map (fun t => t.nn_lm_logprob)
      ∧ new_tokens.map (fun t => t.ac_logprob)
          = [Token.init [0] () 0 0 0].map (fun t => t.ac_logprob + (-1))
      ∧ new_tokens.map (fun t => t.lat_lm_logprob)
          = [Token.init [0] () 0 0 0].map (fun t => t.lat_lm_logprob + (-2))
      ∧ ∀ d' : LatticeDecoder ℚ Unit,
          processLink d' [Token.init [0] () 0 0 0] (fun _ => []) ⟨"!NULL", -1, -2, 5⟩
            = processLink decW [Token.init [0] () 0 0 0] (fun _ => []) ⟨"!NULL", -1, -2, 5⟩ :=
  null_link_skips_model_scoring decW [Token.init [0] () 0 0 0] (fun _ => [])
    ⟨"!NULL", -1, -2, 5⟩ (by decide)

/-- Claim C6: over the explicit heap, `Token.copy` yields a token whose
history is an equal-by-value but distinct list cell (appending to the
copy's cell leaves the original's cell unchanged, and conversely the
append lands in the copy's cell), whose state is the same shared
reference, and whose three accumulated log-probabilities are equal. -/
theorem token_copy_no_history_aliasing {α : Type} (h : HeapModel.Heap)
    (t : HeapModel.HToken α) (hv : t.history < h.length) :
    (HeapModel.tokenCopyHeap h t).2.history ≠ t.history
    ∧ (HeapModel.tokenCopyHeap h t).1.get? (HeapModel.tokenCopyHeap h t).2.history
        = h.get? t.history
    ∧ (∀ w, (HeapModel.heapAppend (HeapModel.tokenCopyHeap h t).1
          (HeapModel.tokenCopyHeap h t).2.history w).get? t.history = h.get? t.history)
    ∧ (∀ w, ∃ hist, h.get? t.history = some hist ∧
        (HeapModel.heapAppend (HeapModel.tokenCopyHeap h t).1
          (HeapModel.tokenCopyHeap h t).2.history w).get?
            (HeapModel.tokenCopyHeap h t).2.history = some (hist ++ [w]))
    ∧ (HeapModel.tokenCopyHeap h t).2.state = t.state
    ∧ (HeapModel.tokenCopyHeap h t).2.ac_logprob = t.ac_logprob
    ∧ (HeapModel.tokenCopyHeap h t).2.lat_lm_logprob = t.lat_lm_logprob
    ∧ (HeapModel.tokenCopyHeap h t).2.nn_lm_logprob = t.nn_lm_logprob := by
  obtain ⟨hist, hhist⟩ : ∃ hist, h.get? t.history = some hist := by
    rw [List.get?_eq_getElem?]
    exact ⟨_, List.getElem?_eq_getElem hv⟩
  have haddr : (HeapModel.tokenCopyHeap h t).2.history = h.length := rfl
  have hne : h.length ≠ t.history := by omega
  have hgetD : (h.get? t.history).getD [] = hist := by rw [hhist]; rfl
  have hheap : (HeapModel.tokenCopyHeap h t).1 = h ++ [hist] := by
    simp [HeapModel.tokenCopyHeap, ← List.get?_eq_getElem?, hgetD]
  have hlen : h.length < (HeapModel.tokenCopyHeap h t).1.length := by
    rw [hheap]; simp
  have hcell : (HeapModel.tokenCopyHeap h t).1.get? h.length = some hist := by
    rw [hheap, List.get?_eq_getElem?, List.getElem?_concat_length]
  have horig : (HeapModel.tokenCopyHeap h t).1.get? t.history = some hist := by
    rw [hheap, List.get?_eq_getElem?, List.getElem?_append_left hv,
      ← List.get?_eq_getElem?, hhist]
  refine ⟨by rw [haddr]; exact hne, ?_, ?_, ?_, rfl, rfl, rfl, rfl⟩
  · rw [haddr, hcell, hhist]
  · intro w
    simp only [HeapModel.heapAppend, haddr]
    rw [List.get?_eq_getElem?, List.getElem?_set_ne hne, ← List.get?_eq_getElem?,
      horig, hhist]
  · intro w
    refine ⟨hist, hhist, ?_⟩
    simp only [HeapModel.heapAppend, haddr, hcell, Option.getD_some]
    rw [List.get?_eq_getElem?, List.getElem?_set_self hlen]

/-! ## Stability of the final sort -/

theorem filter_orderedInsert_neg {T : Type} (r : T → T → Prop) [DecidableRel r]
    (p : T → Bool) (a : T) (l : List T) (ha : p a = false) :
    (List.orderedInsert r a l).filter p = l.filter p := by
  induction l with
  | nil => simp [List.orderedInsert, ha]
  | cons b l ih =>
    unfold List.orderedInsert
    by_cases hr : r a b
    · simp [hr, ha]
    · cases hb : p b <;> simp [hr, hb, ih]

theorem filter_orderedInsert_pos {T α : Type} [LinearOrder α] (f : T → α) (c : α)
    (a : T) (l : List T) (hfa : f a = c) :
    (List.orderedInsert (fun x y => f y ≤ f x) a l).filter (fun t => decide (f t = c))
      = a :: l.filter (fun t => decide (f t = c)) := by
  subst hfa
  induction l with
  | nil => simp [List.orderedInsert]
  | cons b l ih =>
    unfold List.orderedInsert
    by_cases hr : f b ≤ f a
    · simp [hr]
    · have hbc : ¬ (f b = f a) := fun hbc => hr (le_of_eq hbc)
      simp [hr, hbc, ih]

/-- The sort `decode` performs is stable: elements with any fixed key value
appear in the output in the same relative order as in the input. -/
theorem filter_insertionSort {T α : Type} [LinearOrder α] (f : T → α) (c : α) :
    ∀ l : List T,
      (List.insertionSort (fun x y => f y ≤ f x) l).filter (fun t => decide (f t = c))
        = l.filter (fun t => decide (f t = c))
  | [] => rfl
  | a :: l => by
    rw [List.insertionSort]
    by_cases hfa : f a = c
    · rw [filter_orderedInsert_pos f c a _ hfa, filter_insertionSort f c l]
      simp [hfa]
    · rw [filter_orderedInsert_neg _ _ a _ (by simpa using hfa),
        filter_insertionSort f c l]
      simp [hfa]

/-! ## Claim C1: the decoder output at the final node -/

theorem appendWord_total_some {α σ : Type} [LinearOrderedField α]
    (d : LatticeDecoder α σ) (ts : List (Token α σ)) (w : Nat)
    (out : List (Token α σ)) (h : appendWord d ts w = Except.ok out) :
    ∀ t ∈ out, t.total_logprob ≠ none := by
  unfold appendWord at h
  cases h1 : ts.mapM (fun t => orErr t.history.getLast? PyErr.indexError) with
  | error e => rw [h1] at h; simp [exceptBind_error] at h
  | ok word_input =>
    rw [h1, exceptBind_ok] at h
    cases h2 : word_input.mapM
        (fun wid => orErr (d.vocabulary.word_id_to_class_id.get? wid) PyErr.indexError) with
    | error e => rw [h2] at h; simp [exceptBind_error] at h
    | ok class_input =>
      rw [h2, exceptBind_ok] at h
      cases h3 : orErr (d.vocabulary.word_id_to_class_id.get? w) PyErr.indexError with
      | error e => rw [h3] at h; simp [exceptBind_error] at h
      | ok target_class =>
        rw [h3, exceptBind_ok] at h
        injection h with h
        intro t ht
        rw [← h] at ht
        obtain ⟨q, _, rfl⟩ := List.mem_map.mp ht
        simp [Token.computeTotalLogprob]

theorem decodeGo_ok_inv {α σ : Type} [LinearOrderedField α]
    (d : LatticeDecoder α σ) (lat : Lattice α) :
    ∀ (ns : List (LatNode α)) (tokens : TokenMap α σ) (res : List (Token α σ)),
      decodeGo d lat ns tokens = Except.ok res →
      ∃ ts ts', reachFinalGo d lat ns tokens = Except.ok ts
        ∧ appendWord d (ts.map Token.copy) d.eos_id = Except.ok ts'
        ∧ res = List.insertionSort (fun a b => totalKey b ≤ totalKey a) ts' := by
  intro ns
  induction ns with
  | nil => intro tokens res h; simp [decodeGo] at h
  | cons node rest ih =>
    intro tokens res h
    unfold decodeGo at h
    by_cases he : (tokens node.id).isEmpty = true
    · simp [he] at h
    · rw [if_neg he] at h
      by_cases hf : node.id = lat.final_node
      · rw [if_pos hf] at h
        cases ha : appendWord d ((tokens node.id).map Token.copy) d.eos_id with
        | error e => rw [ha] at h; simp [exceptBind_error] at h
        | ok ts' =>
          rw [ha, exceptBind_ok] at h
          injection h with h
          exact ⟨tokens node.id, ts', by
            unfold reachFinalGo; rw [if_neg he, if_pos hf], ha, h.symm⟩
      · rw [if_neg hf] at h
        cases hfold : node.out_links.foldlM
            (fun tks link => processLink d (tks node.id) tks link) tokens with
        | error e => rw [hfold] at h; simp [exceptBind_error] at h
        | ok tokens' =>
          rw [hfold, exceptBind_ok] at h
          obtain ⟨ts, ts', hr, ha, hres⟩ := ih tokens' res h
          exact ⟨ts, ts', by
            unfold reachFinalGo
            rw [if_neg he, if_neg hf, hfold, exceptBind_ok]
            exact hr, ha, hres⟩

/-- Claim C1: whenever `decode` returns (the final node was reached and the
end-of-sequence scoring succeeded), the returned list is exactly the final
node's tokens after `</s>` scoring, sorted by `total_logprob` in
descending order, every one of them carrying a computed `total_logprob`,
and with ties left in their pre-sort order (the filter equality at every
key value: a stable sort). -/
theorem decode_returns_sorted_final_tokens {α σ : Type} [LinearOrderedField α]
    (d : LatticeDecoder α σ) (lat : Lattice α) (res : List (Token α σ))
    (hok : decode d lat = Except.ok res) :
    ∃ ts ts',
      finalNodeTokens d lat = Except.ok ts
      ∧ appendWord d (ts.map Token.copy) d.eos_id = Except.ok ts'
      ∧ res.Perm ts'
      ∧ (∀ t ∈ res, t.total_logprob ≠ none)
      ∧ res.Pairwise (fun a b => totalKey b ≤ totalKey a)
      ∧ (∀ c : α, res.filter (fun t => decide (totalKey t = c))
          = ts'.filter (fun t => decide (totalKey t = c))) := by
  obtain ⟨ts, ts', hr, ha, hres⟩ := decodeGo_ok_inv d lat lat.sorted_nodes _ res hok
  haveI htot : IsTotal (Token α σ) (fun a b => totalKey b ≤ totalKey a) :=
    ⟨fun a b => (le_total (totalKey b) (totalKey a)).imp id id⟩
  haveI htr : IsTrans (Token α σ) (fun a b => totalKey b ≤ totalKey a) :=
    ⟨fun _ _ _ h1 h2 => le_trans h2 h1⟩
  have hperm : res.Perm ts' := by
    rw [hres]; exact List.perm_insertionSort _ ts'
  refine ⟨ts, ts', hr, ha, hperm, ?_, ?_, ?_⟩
  · intro t ht
    exact appendWord_total_some d (ts.map Token.copy) d.eos_id ts' ha t (hperm.mem_iff.mp ht)
  · rw [hres]
    exact List.sorted_insertionSort _ ts'
  · intro c
    rw [hres]
    exact filter_insertionSort totalKey c ts'

/-! ## Claim C2: unreachable final node -/

/-- A link the decoder can process without raising: either a `'!'` markup
word, or a word the vocabulary resolves to an ID with a class-table
entry. -/
def CleanLink {α σ : Type} (d : LatticeDecoder α σ) (l : Link α) : Prop :=
  pyStartsWith l.word "!" = true
  ∨ ∃ wid, dictGet d.vocabulary.word_to_id l.word = some wid
      ∧ wid < d.vocabulary.word_id_to_class_id.length

/-- The traversal invariant: token lists are empty at unreachable nodes,
and every live token's history ends in a word ID with a class-table
entry. -/
def TInv {α σ : Type} (d : LatticeDecoder α σ) (lat : Lattice α)
    (tokens : TokenMap α σ) : Prop :=
  (∀ n, ¬ Reach lat n → tokens n = [])
  ∧ (∀ n, ∀ t ∈ tokens n, ∃ x, t.history.getLast? = some x
      ∧ x < d.vocabulary.word_id_to_class_id.length)

theorem mapM_orErr_ok {A B : Type} (f : A → Option B) (e : PyErr) (P : B → Prop)
    (l : List A) (h : ∀ a ∈ l, ∃ b, f a = some b ∧ P b) :
    ∃ out, l.mapM (fun a => orErr (f a) e) = Except.ok out ∧ ∀ b ∈ out, P b := by
  induction l with
  | nil => exact ⟨[], rfl, by simp⟩
  | cons a l ih =>
    obtain ⟨b, hb, hPb⟩ := h a (List.mem_cons_self a l)
    obtain ⟨out, hout, hPout⟩ := ih (fun a ha => h a (List.mem_cons_of_mem _ ha))
    refine ⟨b :: out, ?_, ?_⟩
    · rw [List.mapM_cons, hout, hb]
      rfl
    · intro b' hb'
      rcases List.mem_cons.mp hb' with rfl | hb'
      · exact hPb
      · exact hPout b' hb'

/-- `append_word` succeeds when every token's history has a last word with
a class entry and so does the target word; the output histories all end in
the target word and an empty input gives an empty output. -/
theorem appendWord_ok {α σ : Type} [LinearOrderedField α] (d : LatticeDecoder α σ)
    (ts : List (Token α σ)) (w : Nat)
    (hts : ∀ t ∈ ts, ∃ x, t.history.getLast? = some x
      ∧ x < d.vocabulary.word_id_to_class_id.length)
    (hw : w < d.vocabulary.word_id_to_class_id.length) :
    ∃ out, appendWord d ts w = Except.ok out
      ∧ (∀ t ∈ out, t.history.getLast? = some w)
      ∧ (ts = [] → out = []) := by
  obtain ⟨word_input, hwi, hwiP⟩ := mapM_orErr_ok (fun t : Token α σ => t.history.getLast?)
    PyErr.indexError (fun x => x < d.vocabulary.word_id_to_class_id.length) ts
    (fun t ht => hts t ht)
  obtain ⟨class_input, hci, _⟩ := mapM_orErr_ok
    (fun wid => d.vocabulary.word_id_to_class_id.get? wid) PyErr.indexError
    (fun _ => True) word_input
    (fun wid hwid => by
      obtain ⟨c, hc⟩ : ∃ c, d.vocabulary.word_id_to_class_id.get? wid = some c := by
        rw [List.get?_eq_getElem?]
        exact ⟨_, List.getElem?_eq_getElem (hwiP wid hwid)⟩
      exact ⟨c, hc, trivial⟩)
  obtain ⟨tc, htc⟩ : ∃ c, d.vocabulary.word_id_to_class_id.get? w = some c := by
    rw [List.get?_eq_getElem?]
    exact ⟨_, List.getElem?_eq_getElem hw⟩
  obtain ⟨out, hok⟩ : ∃ out, appendWord d ts w = Except.ok out := by
    unfold appendWord
    rw [hwi, exceptBind_ok, hci, exceptBind_ok]
    simp only [orErr, htc, exceptBind_ok]
    exact ⟨_, rfl⟩
  have hout : out = ((ts.zip
      ((d.model.step word_input class_input (ts.map (fun t => t.state))
        (List.replicate ts.length tc)).1.zip
       (d.model.step word_input class_input (ts.map (fun t => t.state))
        (List.replicate ts.length tc)).2)).map (fun p =>
      Token.computeTotalLogprob d.backend
        { p.1 with
            history := p.1.history ++ [w]
            state := p.2.2
            nn_lm_logprob := p.1.nn_lm_logprob + p.2.1 }
        d.weight 1)) := by
    unfold appendWord at hok
    rw [hwi, exceptBind_ok, hci, exceptBind_ok] at hok
    simp only [orErr, htc, exceptBind_ok] at hok
    injection hok with hok
    exact hok.symm
  refine ⟨out, hok, ?_, ?_⟩
  · intro t ht
    rw [hout] at ht
    obtain ⟨q, _, rfl⟩ := List.mem_map.mp ht
    simp [Token.computeTotalLogprob, List.getLast?_concat]
  · intro hnil
    rw [hout, hnil]
    rfl

/-- Processing one clean link of a node never raises and preserves the
traversal invariant. -/
theorem processLink_ok_inv {α σ : Type} [LinearOrderedField α]
    (d : LatticeDecoder α σ) (lat : Lattice α) (node : LatNode α)
    (hnode : node ∈ lat.nodes) (l : Link α) (hl : l ∈ node.out_links)
    (hclean : CleanLink d l) (tokens : TokenMap α σ) (hInv : TInv d lat tokens) :
    ∃ tokens', processLink d (tokens node.id) tokens l = Except.ok tokens'
      ∧ TInv d lat tokens' := by
  obtain ⟨hInv1, hInv2⟩ := hInv
  have hcopyinv : ∀ t ∈ (tokens node.id).map (fun t =>
      let c := Token.copy t
      ({ c with
          ac_logprob := c.ac_logprob + l.ac_logprob
          lat_lm_logprob := c.lat_lm_logprob + l.lm_logprob } : Token α σ)),
      ∃ x, t.history.getLast? = some x
        ∧ x < d.vocabulary.word_id_to_class_id.length := by
    intro t ht
    obtain ⟨q, hq, rfl⟩ := List.mem_map.mp ht
    exact hInv2 node.id q hq
  have hmain : ∀ out, (∀ t ∈ out, ∃ x, t.history.getLast? = some x
        ∧ x < d.vocabulary.word_id_to_class_id.length) →
      (tokens node.id = [] → out = []) →
      TInv d lat (fun n => if n = l.end_node then tokens n ++ out else tokens n) := by
    intro out hout hempty
    constructor
    · intro n hn
      show (if n = l.end_node then tokens n ++ out else tokens n) = []
      by_cases hne : n = l.end_node
      · subst hne
        rw [if_pos rfl, hInv1 l.end_node hn]
        have hnodetk : tokens node.id = [] := by
          by_cases hrn : Reach lat node.id
          · exact absurd (hrn.step ⟨node, hnode, rfl, l, hl, rfl⟩) hn
          · exact hInv1 node.id hrn
        rw [hempty hnodetk]
        rfl
      · rw [if_neg hne]
        exact hInv1 n hn
    · intro n t ht
      have ht' : t ∈ (if n = l.end_node then tokens n ++ out else tokens n) := ht
      by_cases hne : n = l.end_node
      · subst hne
        rw [if_pos rfl] at ht'
        rcases List.mem_append.mp ht' with h | h
        · exact hInv2 l.end_node t h
        · exact hout t h
      · rw [if_neg hne] at ht'
        exact hInv2 n t ht'
  unfold processLink
  by_cases hb : pyStartsWith l.word "!"
  · rw [if_pos hb, exceptBind_ok]
    refine ⟨_, rfl, hmain _ hcopyinv ?_⟩
    intro h
    rw [h]
    rfl
  · rcases hclean with hclean | ⟨wid, hwid, hwlt⟩
    · exact absurd hclean hb
    · rw [if_neg hb]
      obtain ⟨out, hok, hlastw, hempty⟩ := appendWord_ok d _ wid hcopyinv hwlt
      simp only [orErr, hwid, exceptBind_ok, hok]
      refine ⟨_, rfl, hmain out (fun t ht => ⟨wid, hlastw t ht, hwlt⟩) ?_⟩
      intro h
      apply hempty
      rw [h]
      rfl

/-- Fanning a node's tokens out over its clean links never raises and
preserves the traversal invariant. -/
theorem foldLinks_ok_inv {α σ : Type} [LinearOrderedField α]
    (d : LatticeDecoder α σ) (lat : Lattice α) (node : LatNode α)
    (hnode : node ∈ lat.nodes) :
    ∀ (links : List (Link α)), (∀ l ∈ links, l ∈ node.out_links ∧ CleanLink d l) →
    ∀ tokens : TokenMap α σ, TInv d lat tokens →
    ∃ tokens', links.foldlM
        (fun tks link => processLink d (tks node.id) tks link) tokens
        = Except.ok tokens'
      ∧ TInv d lat tokens' := by
  intro links
  induction links with
  | nil =>
    intro _ tokens hInv
    exact ⟨tokens, rfl, hInv⟩
  | cons l ls ih =>
    intro hls tokens hInv
    obtain ⟨hl, hcl⟩ := hls l (List.mem_cons_self l ls)
    obtain ⟨tokens1, hok1, hInv1⟩ := processLink_ok_inv d lat node hnode l hl hcl tokens hInv
    obtain ⟨tokens', hok', hInv'⟩ :=
      ih (fun l' hl' => hls l' (List.mem_cons_of_mem _ hl')) tokens1 hInv1
    refine ⟨tokens', ?_, hInv'⟩
    rw [List.foldlM_cons, hok1, exceptBind_ok, hok']

/-- The node loop on a suffix still containing the final node: with the
invariant in force and the final node unreachable, the loop must reach a
token-less node and die on the `assert`. -/
theorem decodeGo_assert_error {α σ : Type} [LinearOrderedField α]
    (d : LatticeDecoder α σ) (lat : Lattice α)
    (hnr : ¬ Reach lat lat.final_node) :
    ∀ (ns : List (LatNode α)),
      (∀ node ∈ ns, node ∈ lat.nodes ∧ ∀ l ∈ node.out_links, CleanLink d l) →
      (∃ node ∈ ns, node.id = lat.final_node) →
      ∀ tokens : TokenMap α σ, TInv d lat tokens →
      decodeGo d lat ns tokens = Except.error PyErr.assertionError := by
  intro ns
  induction ns with
  | nil => rintro _ ⟨node, hn, _⟩ _ _; exact absurd hn (List.not_mem_nil node)
  | cons node rest ih =>
    rintro hns ⟨node0, hn0, hfin0⟩ tokens hInv
    unfold decodeGo
    by_cases he : (tokens node.id).isEmpty = true
    · rw [if_pos he]
    · have hreach : Reach lat node.id := by
        by_contra hrn
        rw [hInv.1 node.id hrn] at he
        exact he rfl
      have hnf : node.id ≠ lat.final_node := fun heq => hnr (heq ▸ hreach)
      rw [if_neg he, if_neg hnf]
      obtain ⟨tokens', hfold, hInv'⟩ := foldLinks_ok_inv d lat node
        (hns node (List.mem_cons_self node rest)).1 node.out_links
        (fun l hl => ⟨hl, (hns node (List.mem_cons_self node rest)).2 l hl⟩) tokens hInv
      rw [hfold, exceptBind_ok]
      refine ih (fun n hn => hns n (List.mem_cons_of_mem _ hn)) ?_ tokens' hInv'
      rcases List.mem_cons.mp hn0 with rfl | hn0
      · exact absurd hfin0 hnf
      · exact ⟨node0, hn0, hfin0⟩

/-- Claim C2 (amended): on a lattice whose final node is unreachable from
the initial node, `decode` fails — returning no result — but with the
token-presence `AssertionError` from `assert node_tokens`, raised at the
first token-less node of the topological order, not with the
`InputError('Could not reach the final node of word lattice.')` that the
spec's `DecodingError` names (that raise is only reachable when the final
node is missing from `sorted_nodes()` altogether).  Hypotheses: the final
node occurs in `sorted_nodes`, `sorted_nodes` draws from the lattice's
nodes, every link word is scorable (so no `KeyError` preempts the
assert), and `<s>` has a class entry. -/
theorem decode_unreachable_final_assertion_error {α σ : Type} [LinearOrderedField α]
    (d : LatticeDecoder α σ) (lat : Lattice α)
    (hfin : ∃ node ∈ lat.sorted_nodes, node.id = lat.final_node)
    (hsub : ∀ node ∈ lat.sorted_nodes, node ∈ lat.nodes)
    (hnr : ¬ Reach lat lat.final_node)
    (hclean : ∀ node ∈ lat.sorted_nodes, ∀ l ∈ node.out_links, CleanLink d l)
    (hsos : d.sos_id < d.vocabulary.word_id_to_class_id.length) :
    decode d lat = Except.error PyErr.assertionError := by
  unfold decode
  refine decodeGo_assert_error d lat hnr lat.sorted_nodes
    (fun node hn => ⟨hsub node hn, hclean node hn⟩) hfin _ ⟨?_, ?_⟩
  · intro n hn
    by_cases hni : n = lat.initial_node
    · subst hni
      exact absurd Reach.init hn
    · simp [initialTokenMap, hni]
  · intro n t ht
    simp only [initialTokenMap] at ht
    have ht' : t ∈ (if n = lat.initial_node
        then [Token.init [d.sos_id] d.model.zero_state 0 0 0] else []) := ht
    by_cases hni : n = lat.initial_node
    · rw [if_pos hni] at ht'
      rcases List.mem_cons.mp ht' with rfl | h
      · exact ⟨d.sos_id, rfl, hsos⟩
      · exact absurd h (List.not_mem_nil t)
    · rw [if_neg hni] at ht'
      exact absurd ht' (List.not_mem_nil t)

/-- A disconnected two-node lattice: no links, final node 1 unreachable
from initial node 0. -/
def latD : Lattice ℚ := ⟨[⟨0, []⟩, ⟨1, []⟩], 0, 1, [⟨0, []⟩, ⟨1, []⟩]⟩

/-- Counterexample to C2 as stated: on a disconnected lattice `decode`
fails with the `assert node_tokens` `AssertionError`, which is a different
kind of failure from the `InputError` at the end of the loop (the code's
counterpart of the claim's `DecodingError`), so "no other kind of failure
occurs on that path" is false. -/
theorem decode_unreachable_final_counterexample :
    decode decW latD = Except.error PyErr.assertionError
    ∧ PyErr.assertionError ≠ PyErr.inputError :=
  ⟨by with_unfolding_all rfl, by decide⟩

/-- Witness for the amended C2 at the disconnected two-node lattice. -/
theorem decode_unreachable_final_assertion_error_witness :
    decode decW latD = Except.error PyErr.assertionError :=
  decode_unreachable_final_assertion_error decW latD
    (⟨⟨1, []⟩, by decide, rfl⟩)
    (by decide)
    (by
      intro h
      cases h with
      | step hm hex =>
        obtain ⟨node, hn, _, l, hl, _⟩ := hex
        rcases List.mem_cons.mp hn with rfl | hn
        · exact absurd hl (List.not_mem_nil l)
        · rcases List.mem_cons.mp hn with rfl | hn
          · exact absurd hl (List.not_mem_nil l)
          · exact absurd hn (List.not_mem_nil node))
    (by
      intro node hn l hl
      rcases List.mem_cons.mp hn with rfl | hn
      · exact absurd hl (List.not_mem_nil l)
      · rcases List.mem_cons.mp hn with rfl | hn
        · exact absurd hl (List.not_mem_nil l)
        · exact absurd hn (List.not_mem_nil node))
    (by with_unfolding_all decide)

/-! ## Claim C9: out-of-vocabulary words on reachable links -/

/-- The node loop restricted to a prefix of the traversal that neither
errors nor reaches the final node, returning the token lists it leaves
behind — the configuration `decode` is in when it starts processing the
next node. -/
def runNodes {α σ : Type} [LinearOrderedField α] (d : LatticeDecoder α σ)
    (lat : Lattice α) : List (LatNode α) → TokenMap α σ →
    Except PyErr (TokenMap α σ)
  | [], tokens => Except.ok tokens
  | node :: rest, tokens =>
    if (tokens node.id).isEmpty then Except.error PyErr.assertionError
    else if node.id = lat.final_node then Except.error PyErr.inputError
    else do
      let tokens' ← node.out_links.foldlM
        (fun tks link => processLink d (tks node.id) tks link) tokens
      runNodes d lat rest tokens'

theorem runNodes_decodeGo {α σ : Type} [LinearOrderedField α]
    (d : LatticeDecoder α σ) (lat : Lattice α) :
    ∀ (pren ns : List (LatNode α)) (tokens0 tokens : TokenMap α σ),
      runNodes d lat pren tokens0 = Except.ok tokens →
      decodeGo d lat (pren ++ ns) tokens0 = decodeGo d lat ns tokens := by
  intro pren
  induction pren with
  | nil =>
    intro ns tokens0 tokens h
    injection h with h
    rw [List.nil_append, h]
  | cons node rest ih =>
    intro ns tokens0 tokens h
    unfold runNodes at h
    by_cases he : (tokens0 node.id).isEmpty = true
    · rw [if_pos he] at h; cases h
    · rw [if_neg he] at h
      by_cases hf : node.id = lat.final_node
      · rw [if_pos hf] at h; cases h
      · rw [if_neg hf] at h
        cases hfold : node.out_links.foldlM
            (fun tks link => processLink d (tks node.id) tks link) tokens0 with
        | error e => rw [hfold] at h; simp [exceptBind_error] at h
        | ok tokens1 =>
          rw [hfold, exceptBind_ok] at h
          rw [List.cons_append]
          conv_lhs => rw [decodeGo]
          rw [if_neg he, if_neg hf, hfold, exceptBind_ok]
          exact ih ns tokens1 tokens h

/-- Claim C9: when the traversal is about to process a reachable link (the
decoder has worked through the preceding nodes without failing or
finishing, the node holds tokens, and the node's earlier links were
processed) whose word neither starts with `'!'` nor appears in the
vocabulary, `decode` fails with the `KeyError` from
`word_to_id[link.word]` — the word is not silently mapped to the `<unk>`
ID. -/
theorem decode_oov_word_key_error {α σ : Type} [LinearOrderedField α]
    (d : LatticeDecoder α σ) (lat : Lattice α)
    (pren : List (LatNode α)) (node : LatNode α) (rest : List (LatNode α))
    (hsplit : lat.sorted_nodes = pren ++ node :: rest)
    (tokens : TokenMap α σ)
    (hrun : runNodes d lat pren (initialTokenMap d lat) = Except.ok tokens)
    (hne : (tokens node.id).isEmpty = false)
    (hnf : node.id ≠ lat.final_node)
    (pre : List (Link α)) (l : Link α) (post : List (Link α))
    (hlinks : node.out_links = pre ++ l :: post)
    (tks' : TokenMap α σ)
    (hpre : pre.foldlM (fun tks link => processLink d (tks node.id) tks link) tokens
      = Except.ok tks')
    (hbang : pyStartsWith l.word "!" = false)
    (hoov : dictGet d.vocabulary.word_to_id l.word = none) :
    decode d lat = Except.error PyErr.keyError := by
  have hpl : processLink d (tks' node.id) tks' l = Except.error PyErr.keyError := by
    unfold processLink
    rw [if_neg (by rw [hbang]; exact Bool.false_ne_true), hoov]
    rfl
  unfold decode
  rw [hsplit, runNodes_decodeGo d lat pren _ _ tokens hrun]
  unfold decodeGo
  rw [if_neg (by rw [hne]; exact Bool.false_ne_true), if_neg hnf, hlinks,
    List.foldlM_append, hpre, exceptBind_ok, List.foldlM_cons, hpl,
    exceptBind_error, exceptBind_error]

/-- A one-link lattice whose word `dog` is not in the vocabulary. -/
def latO : Lattice ℚ :=
  ⟨[⟨0, [⟨"dog", -1, -2, 1⟩]⟩, ⟨1, []⟩], 0, 1,
   [⟨0, [⟨"dog", -1, -2, 1⟩]⟩, ⟨1, []⟩]⟩

/-- Witness for C9: the decoder dies with `KeyError` on the reachable
out-of-vocabulary link of `latO`. -/
theorem decode_oov_word_key_error_witness :
    decode decW latO = Except.error PyErr.keyError :=
  decode_oov_word_key_error decW latO [] ⟨0, [⟨"dog", -1, -2, 1⟩]⟩ [⟨1, []⟩] rfl
    (initialTokenMap decW latO) rfl
    (by with_unfolding_all rfl)
    (by decide)
    [] ⟨"dog", -1, -2, 1⟩ [] rfl
    (initialTokenMap decW latO) rfl
    (by decide)
    (by with_unfolding_all rfl)

/-- A one-link lattice (`0 --cat--> 1`) over the concrete decoder. -/
def latW : Lattice ℚ :=
  ⟨[⟨0, [⟨"cat", -1, -2, 1⟩]⟩, ⟨1, []⟩], 0, 1,
   [⟨0, [⟨"cat", -1, -2, 1⟩]⟩, ⟨1, []⟩]⟩

/-- Witness for C1: decoding the one-link lattice returns the single final
token, and the theorem's characterization holds of it. -/
theorem decode_returns_sorted_final_tokens_witness :
    ∃ ts ts',
      finalNodeTokens decW latW = Except.ok ts
      ∧ appendWord decW (ts.map Token.copy) decW.eos_id = Except.ok ts'
      ∧ ([⟨[0, 3, 1], (), -1, -2, 0, some (-1)⟩] : List (Token ℚ Unit)).Perm ts'
      ∧ (∀ t ∈ ([⟨[0, 3, 1], (), -1, -2, 0, some (-1)⟩] : List (Token ℚ Unit)),
          t.total_logprob ≠ none)
      ∧ ([⟨[0, 3, 1], (), -1, -2, 0, some (-1)⟩] : List (Token ℚ Unit)).Pairwise
          (fun a b => totalKey b ≤ totalKey a)
      ∧ (∀ c : ℚ,
          ([⟨[0, 3, 1], (), -1, -2, 0, some (-1)⟩] : List (Token ℚ Unit)).filter
            (fun t => decide (totalKey t = c))
          = ts'.filter (fun t => decide (totalKey t = c))) :=
  decode_returns_sorted_final_tokens decW latW
    [⟨[0, 3, 1], (), -1, -2, 0, some (-1)⟩] (by with_unfolding_all rfl)

/-- Witness for C6: a one-cell heap and a token pointing at it. -/
theorem token_copy_no_history_aliasing_witness :
    (HeapModel.tokenCopyHeap [[0, 5]] (⟨0, 7, 1, 2, 3⟩ : HeapModel.HToken ℚ)).2.history ≠ 0
    ∧ (HeapModel.tokenCopyHeap [[0, 5]] (⟨0, 7, 1, 2, 3⟩ : HeapModel.HToken ℚ)).1.get?
        (HeapModel.tokenCopyHeap [[0, 5]] (⟨0, 7, 1, 2, 3⟩ : HeapModel.HToken ℚ)).2.history
        = [[0, 5]].get? 0
    ∧ (∀ w, (HeapModel.heapAppend
          (HeapModel.tokenCopyHeap [[0, 5]] (⟨0, 7, 1, 2, 3⟩ : HeapModel.HToken ℚ)).1
          (HeapModel.tokenCopyHeap [[0, 5]] (⟨0, 7, 1, 2, 3⟩ : HeapModel.HToken ℚ)).2.history
          w).get? 0 = [[0, 5]].get? 0)
    ∧ (∀ w, ∃ hist, [[0, 5]].get? 0 = some hist ∧
        (HeapModel.heapAppend
          (HeapModel.tokenCopyHeap [[0, 5]] (⟨0, 7, 1, 2, 3⟩ : HeapModel.HToken ℚ)).1
          (HeapModel.tokenCopyHeap [[0, 5]] (⟨0, 7, 1, 2, 3⟩ : HeapModel.HToken ℚ)).2.history
          w).get?
          (HeapModel.tokenCopyHeap [[0, 5]] (⟨0, 7, 1, 2, 3⟩ : HeapModel.HToken ℚ)).2.history
          = some (hist ++ [w]))
    ∧ (HeapModel.tokenCopyHeap [[0, 5]] (⟨0, 7, 1, 2, 3⟩ : HeapModel.HToken ℚ)).2.state = 7
    ∧ (HeapModel.tokenCopyHeap [[0, 5]] (⟨0, 7, 1, 2, 3⟩ : HeapModel.HToken ℚ)).2.ac_logprob = 1
    ∧ (HeapModel.tokenCopyHeap [[0, 5]] (⟨0, 7, 1, 2, 3⟩ : HeapModel.HToken ℚ)).2.lat_lm_logprob = 2
    ∧ (HeapModel.tokenCopyHeap [[0, 5]] (⟨0, 7, 1, 2, 3⟩ : HeapModel.HToken ℚ)).2.nn_lm_logprob = 3 :=
  token_copy_no_history_aliasing [[0, 5]] (⟨0, 7, 1, 2, 3⟩ : HeapModel.HToken ℚ) (by decide)

end TheanoLM
